import Mathlib

/-!
Verification development for the `kvs` log-structured key-value store
(Bitcask-style engine in `src/engine/kvs.rs`, wire handling in
`src/server.rs`, error taxonomy in `src/error.rs`).

The engine state is embedded shallowly: segment files become lists of
characters, the in-memory `BTreeMap`/`HashMap` maps become association
lists, `serde_json` serialisation of the record type `Op` becomes an
executable JSON encoder/decoder for exactly the record grammar the code
produces, and the `set`/`remove`/`flush`/`compact`/`open` procedures are
translated statement by statement.  Byte positions in files are modelled
as character positions; writer and reader use the same unit, as in the
source.  Rust panics (`expect`/`unwrap`) are modelled as a distinguished
`Failure.crash` outcome, `Result` errors as `Failure.err`.
-/

/-! ## Association lists

`BTreeMap`/`HashMap` values are modelled as association lists.  Insertion
replaces the value in place when the key is present and appends at the end
otherwise; removal deletes the (unique) binding.  This mirrors map
behaviour observably: lookups agree with the Rust maps, and iteration in
`compact` visits each binding exactly once.
-/

def alLookup {κ α : Type} [DecidableEq κ] : List (κ × α) → κ → Option α
  | [], _ => none
  | (k', v) :: rest, k => if k = k' then some v else alLookup rest k

def alInsert {κ α : Type} [DecidableEq κ] : List (κ × α) → κ → α → List (κ × α)
  | [], k, v => [(k, v)]
  | (k', v') :: rest, k, v =>
    if k = k' then (k', v) :: rest else (k', v') :: alInsert rest k v

def alErase {κ α : Type} [DecidableEq κ] : List (κ × α) → κ → List (κ × α)
  | [], _ => []
  | (k', v') :: rest, k => if k = k' then rest else (k', v') :: alErase rest k

def alKeys {κ α : Type} : List (κ × α) → List κ := List.map Prod.fst

theorem alLookup_eq_none {κ α : Type} [DecidableEq κ] (l : List (κ × α)) (k : κ)
    (h : k ∉ alKeys l) : alLookup l k = none := by
  induction l with
  | nil => rfl
  | cons p rest ih =>
    simp only [alKeys, List.map_cons, List.mem_cons, not_or] at h
    simp only [alLookup]
    rw [if_neg h.1]
    exact ih (by simpa [alKeys] using h.2)

theorem alInsert_of_not_mem {κ α : Type} [DecidableEq κ] (l : List (κ × α)) (k : κ) (v : α)
    (h : k ∉ alKeys l) : alInsert l k v = l ++ [(k, v)] := by
  induction l with
  | nil => rfl
  | cons p rest ih =>
    simp only [alKeys, List.map_cons, List.mem_cons, not_or] at h
    simp only [alInsert]
    rw [if_neg h.1, ih (by simpa [alKeys] using h.2)]
    rfl

theorem alKeys_insert {κ α : Type} [DecidableEq κ] (l : List (κ × α)) (k : κ) (v : α) :
    alKeys (alInsert l k v) = if k ∈ alKeys l then alKeys l else alKeys l ++ [k] := by
  induction l with
  | nil => simp [alInsert, alKeys]
  | cons p rest ih =>
    by_cases hk : k = p.1
    · subst hk
      simp [alInsert, alKeys]
    · simp only [alInsert, alKeys, List.map_cons, List.mem_cons]
      rw [if_neg hk]
      simp only [alKeys] at ih
      simp only [List.map_cons, ih]
      by_cases hm : k ∈ List.map Prod.fst rest
      · simp [hm, hk]
      · simp [hm, hk]

theorem alErase_of_not_mem {κ α : Type} [DecidableEq κ] (l : List (κ × α)) (k : κ)
    (h : k ∉ alKeys l) : alErase l k = l := by
  induction l with
  | nil => rfl
  | cons p rest ih =>
    simp only [alKeys, List.map_cons, List.mem_cons, not_or] at h
    simp only [alErase]
    rw [if_neg h.1, ih (by simpa [alKeys] using h.2)]

theorem alLookup_append_left {κ α : Type} [DecidableEq κ] (l₁ l₂ : List (κ × α)) (k : κ)
    (h : (alLookup l₁ k).isSome) : alLookup (l₁ ++ l₂) k = alLookup l₁ k := by
  induction l₁ with
  | nil => simp [alLookup] at h
  | cons p rest ih =>
    by_cases hk : k = p.1
    · simp [alLookup, hk]
    · simp only [alLookup, List.cons_append, if_neg hk] at h ⊢
      exact ih h

theorem alLookup_append_right {κ α : Type} [DecidableEq κ] (l₁ l₂ : List (κ × α)) (k : κ)
    (h : k ∉ alKeys l₁) : alLookup (l₁ ++ l₂) k = alLookup l₂ k := by
  induction l₁ with
  | nil => rfl
  | cons p rest ih =>
    simp only [alKeys, List.map_cons, List.mem_cons, not_or] at h
    simp only [alLookup, List.cons_append]
    rw [if_neg h.1]
    exact ih (by simpa [alKeys] using h.2)

theorem alLookup_isSome_iff_mem {κ α : Type} [DecidableEq κ] (l : List (κ × α)) (k : κ) :
    (alLookup l k).isSome = true ↔ k ∈ alKeys l := by
  induction l with
  | nil => simp [alLookup, alKeys]
  | cons p rest ih =>
    by_cases hk : k = p.1
    · simp [alLookup, alKeys, hk]
    · simp [alLookup, alKeys, hk, ih]

theorem alLookup_insert_self {κ α : Type} [DecidableEq κ] (l : List (κ × α)) (k : κ) (v : α) :
    alLookup (alInsert l k v) k = some v := by
  induction l with
  | nil => simp [alInsert, alLookup]
  | cons p rest ih =>
    by_cases hk : k = p.1
    · simp [alInsert, alLookup, hk]
    · simp [alInsert, alLookup, hk, ih]

theorem alLookup_insert_ne {κ α : Type} [DecidableEq κ] (l : List (κ × α)) (k k' : κ) (v : α)
    (h : k' ≠ k) : alLookup (alInsert l k v) k' = alLookup l k' := by
  induction l with
  | nil => simp [alInsert, alLookup, h]
  | cons p rest ih =>
    by_cases hk : k = p.1
    · subst hk
      simp [alInsert, alLookup, h]
    · by_cases hk' : k' = p.1
      · simp [alInsert, alLookup, hk, hk']
      · simp [alInsert, alLookup, hk, hk', ih]

theorem alKeys_nodup_insert {κ α : Type} [DecidableEq κ] (l : List (κ × α)) (k : κ) (v : α)
    (h : (alKeys l).Nodup) : (alKeys (alInsert l k v)).Nodup := by
  rw [alKeys_insert]
  by_cases hm : k ∈ alKeys l
  · simpa [hm]
  · simp only [hm, if_false]
    simpa [List.nodup_append] using ⟨h, hm⟩

theorem alKeys_erase_sublist {κ α : Type} [DecidableEq κ] (l : List (κ × α)) (k : κ) :
    (alKeys (alErase l k)).Sublist (alKeys l) := by
  induction l with
  | nil => simp [alErase, alKeys]
  | cons p rest ih =>
    by_cases hk : k = p.1
    · simp only [alErase, if_pos hk, alKeys, List.map_cons]
      exact List.sublist_cons_of_sublist _ (List.Sublist.refl _)
    · simp only [alErase, if_neg hk, alKeys, List.map_cons]
      exact List.Sublist.cons₂ _ ih

theorem alKeys_nodup_erase {κ α : Type} [DecidableEq κ] (l : List (κ × α)) (k : κ)
    (h : (alKeys l).Nodup) : (alKeys (alErase l k)).Nodup :=
  (alKeys_erase_sublist l k).nodup h

/-! Pointwise relations between two association lists with aligned keys.  The
index (key to segment pointer) and the value map (key to live value) are kept
related entry by entry via `List.Forall₂`. -/

theorem forall2_keys {α β : Type} {R : (String × α) → (String × β) → Prop}
    (hfst : ∀ a b, R a b → a.1 = b.1) :
    ∀ {l : List (String × α)} {m : List (String × β)},
      List.Forall₂ R l m → alKeys l = alKeys m := by
  intro l m h
  induction h with
  | nil => rfl
  | cons hR _ ih => simp [alKeys, hfst _ _ hR, alKeys.eq_def ▸ ih]

theorem forall2_lookup_some {α β : Type} {R : (String × α) → (String × β) → Prop}
    (hfst : ∀ a b, R a b → a.1 = b.1) :
    ∀ {l : List (String × α)} {m : List (String × β)},
      List.Forall₂ R l m → ∀ {k : String} {e : α}, alLookup l k = some e →
      ∃ v, alLookup m k = some v ∧ R (k, e) (k, v) := by
  intro l m h
  induction h with
  | nil => intro k e he; simp [alLookup] at he
  | cons hR hrest ih =>
    intro k e he
    rename_i a b l' m'
    have hab := hfst _ _ hR
    by_cases hk : k = a.1
    · simp only [alLookup, if_pos hk] at he
      refine ⟨b.2, ?_, ?_⟩
      · have hkb : k = b.1 := by rw [hk, hab]
        simp [alLookup, hkb]
      · have : (k, e) = a := by
          cases a; simp_all
        have hb : (k, b.2) = b := by
          cases b; cases a; simp_all
        rw [this, hb]
        exact hR
    · simp only [alLookup, if_neg hk] at he
      obtain ⟨v, hv, hRv⟩ := ih he
      refine ⟨v, ?_, hRv⟩
      have hkb : k ≠ b.1 := by rw [← hab]; exact hk
      simp [alLookup, hkb, hv]

theorem forall2_lookup_none {α β : Type} {R : (String × α) → (String × β) → Prop}
    (hfst : ∀ a b, R a b → a.1 = b.1)
    {l : List (String × α)} {m : List (String × β)}
    (h : List.Forall₂ R l m) {k : String} (he : alLookup l k = none) :
    alLookup m k = none := by
  have hkeys := forall2_keys hfst h
  rcases ho : alLookup m k with _ | v
  · rfl
  · exfalso
    have : k ∈ alKeys m := (alLookup_isSome_iff_mem m k).mp (by simp [ho])
    rw [← hkeys] at this
    have := (alLookup_isSome_iff_mem l k).mpr this
    simp [he] at this

theorem forall2_insert {α β : Type} {R : (String × α) → (String × β) → Prop}
    (hfst : ∀ a b, R a b → a.1 = b.1) :
    ∀ {l : List (String × α)} {m : List (String × β)},
      List.Forall₂ R l m → ∀ {k : String} {e : α} {v : β}, R (k, e) (k, v) →
      List.Forall₂ R (alInsert l k e) (alInsert m k v) := by
  intro l m h
  induction h with
  | nil =>
    intro k e v hR
    exact List.Forall₂.cons hR List.Forall₂.nil
  | cons hab hrest ih =>
    intro k e v hR
    rename_i a b l' m'
    have hfab := hfst _ _ hab
    by_cases hk : k = a.1
    · have hkb : k = b.1 := hfab ▸ hk
      simp only [alInsert, if_pos hk, if_pos hkb]
      refine List.Forall₂.cons ?_ hrest
      have ha : (a.1, e) = (k, e) := by rw [hk]
      have hb : (b.1, v) = (k, v) := by rw [hkb]
      rw [ha, hb]
      exact hR
    · have hkb : ¬ k = b.1 := hfab ▸ hk
      simp only [alInsert, if_neg hk, if_neg hkb]
      exact List.Forall₂.cons hab (ih hR)

theorem forall2_erase {α β : Type} {R : (String × α) → (String × β) → Prop}
    (hfst : ∀ a b, R a b → a.1 = b.1) :
    ∀ {l : List (String × α)} {m : List (String × β)},
      List.Forall₂ R l m → ∀ (k : String),
      List.Forall₂ R (alErase l k) (alErase m k) := by
  intro l m h
  induction h with
  | nil => intro k; exact List.Forall₂.nil
  | cons hab hrest ih =>
    intro k
    rename_i a b l' m'
    have hfab := hfst _ _ hab
    by_cases hk : k = a.1
    · have hkb : k = b.1 := hfab ▸ hk
      simp only [alErase, if_pos hk, if_pos hkb]
      exact hrest
    · have hkb : ¬ k = b.1 := hfab ▸ hk
      simp only [alErase, if_neg hk, if_neg hkb]
      exact List.Forall₂.cons hab (ih k)

theorem forall2_imp {α β : Type} {R S : (String × α) → (String × β) → Prop}
    (h : ∀ a b, R a b → S a b) :
    ∀ {l : List (String × α)} {m : List (String × β)},
      List.Forall₂ R l m → List.Forall₂ S l m := by
  intro l m hl
  induction hl with
  | nil => exact List.Forall₂.nil
  | cons hab _ ih => exact List.Forall₂.cons (h _ _ hab) ih

/-! ## JSON text encoding of records

`serde_json::to_string` on the record enums produces externally tagged JSON
on a single line.  The encoder below reproduces that output character by
character (string escaping included); the decoder parses exactly the
grammar the encoder emits, which is the only shape ever present in segment
files written by this program, plus trailing whitespace, which
`serde_json::from_str` accepts after the value. -/

def lbrace : Char := '\x7b'

def rbrace : Char := '\x7d'

def hexDigitChar (n : Nat) : Char :=
  if n < 10 then Char.ofNat (48 + n) else Char.ofNat (87 + n)

def escapeChar (c : Char) : List Char :=
  if c = '"' then ['\\', '"']
  else if c = '\\' then ['\\', '\\']
  else if c = '\n' then ['\\', 'n']
  else if c = '\r' then ['\\', 'r']
  else if c = '\t' then ['\\', 't']
  else if c.toNat = 8 then ['\\', 'b']
  else if c.toNat = 12 then ['\\', 'f']
  else if c.toNat < 32 then
    ['\\', 'u', '0', '0', hexDigitChar (c.toNat / 16), hexDigitChar (c.toNat % 16)]
  else [c]

def escapeList : List Char → List Char
  | [] => []
  | c :: cs => escapeChar c ++ escapeList cs

/-- JSON string literal for an arbitrary value: quote, escaped body, quote. -/
def encStringData (s : List Char) : List Char := '"' :: (escapeList s ++ ['"'])

/-- JSON string literal for a fixed tag or field name (no escapable chars). -/
def litString (s : String) : List Char := '"' :: (s.data ++ ['"'])

def unescChar (e : Char) : Option Char :=
  if e = 'n' then some '\n'
  else if e = 'r' then some '\r'
  else if e = 't' then some '\t'
  else if e = 'b' then some (Char.ofNat 8)
  else if e = 'f' then some (Char.ofNat 12)
  else if e = '"' then some '"'
  else if e = '\\' then some '\\'
  else if e = '/' then some '/'
  else none

def hexVal (c : Char) : Option Nat :=
  if 48 ≤ c.toNat ∧ c.toNat ≤ 57 then some (c.toNat - 48)
  else if 97 ≤ c.toNat ∧ c.toNat ≤ 102 then some (c.toNat - 87)
  else if 65 ≤ c.toNat ∧ c.toNat ≤ 70 then some (c.toNat - 55)
  else none

/-- Parse the body of a JSON string (the opening quote already consumed);
returns the decoded characters and the input after the closing quote. -/
def parseStrAux : List Char → Option (List Char × List Char)
  | [] => none
  | c :: rest =>
    if c = '"' then some ([], rest)
    else if c = '\\' then
      match rest with
      | [] => none
      | e :: rest2 =>
        if e = 'u' then
          match rest2 with
          | a :: b :: c2 :: d :: rest3 =>
            match hexVal a, hexVal b, hexVal c2, hexVal d with
            | some va, some vb, some vc, some vd =>
              match parseStrAux rest3 with
              | none => none
              | some (s, r) =>
                some (Char.ofNat (4096 * va + 256 * vb + 16 * vc + vd) :: s, r)
            | _, _, _, _ => none
          | _ => none
        else
          match unescChar e with
          | none => none
          | some ch =>
            match parseStrAux rest2 with
            | none => none
            | some (s, r) => some (ch :: s, r)
    else
      match parseStrAux rest with
      | none => none
      | some (s, r) => some (c :: s, r)

theorem hexVal_hexDigitChar (m : Nat) (h : m < 16) : hexVal (hexDigitChar m) = some m := by
  interval_cases m <;> decide

theorem char_eq_of_toNat_lt32 (c : Char) (h : c.toNat < 32) :
    Char.ofNat (16 * (c.toNat / 16) + c.toNat % 16) = c := by
  have : 16 * (c.toNat / 16) + c.toNat % 16 = c.toNat := Nat.div_add_mod _ 16
  rw [this, Char.ofNat_toNat]

theorem parseStrAux_quote (rest : List Char) :
    parseStrAux ('"' :: rest) = some ([], rest) := by
  rw [parseStrAux.eq_def]
  simp

theorem parseStrAux_esc (e ch : Char) (rest s r : List Char)
    (hu : ¬ e = 'u') (he : unescChar e = some ch)
    (h : parseStrAux rest = some (s, r)) :
    parseStrAux ('\\' :: e :: rest) = some (ch :: s, r) := by
  rw [parseStrAux.eq_def]
  simp [hu, he, h]

theorem parseStrAux_hex (a b c2 d : Char) (rest s r : List Char)
    (va vb vc vd : Nat)
    (ha : hexVal a = some va) (hb : hexVal b = some vb)
    (hc : hexVal c2 = some vc) (hd : hexVal d = some vd)
    (h : parseStrAux rest = some (s, r)) :
    parseStrAux ('\\' :: 'u' :: a :: b :: c2 :: d :: rest)
      = some (Char.ofNat (4096 * va + 256 * vb + 16 * vc + vd) :: s, r) := by
  rw [parseStrAux.eq_def]
  simp [ha, hb, hc, hd, h]

theorem parseStrAux_lit (c : Char) (rest s r : List Char)
    (h1 : ¬ c = '"') (h2 : ¬ c = '\\')
    (h : parseStrAux rest = some (s, r)) :
    parseStrAux (c :: rest) = some (c :: s, r) := by
  rw [parseStrAux.eq_def]
  simp [h1, h2, h]

theorem parseStrAux_escape (s : List Char) (rest : List Char) :
    parseStrAux (escapeList s ++ '"' :: rest) = some (s, rest) := by
  induction s with
  | nil =>
    rw [show escapeList [] = [] from rfl, List.nil_append]
    exact parseStrAux_quote rest
  | cons c cs ih =>
    have hsplit : escapeList (c :: cs) ++ '"' :: rest
        = escapeChar c ++ (escapeList cs ++ '"' :: rest) := by
      show (escapeChar c ++ escapeList cs) ++ _ = _
      rw [List.append_assoc]
    rw [hsplit]
    by_cases h1 : c = '"'
    · subst h1
      exact parseStrAux_esc _ _ _ _ _ (by decide) (by decide) ih
    · by_cases h2 : c = '\\'
      · subst h2
        exact parseStrAux_esc _ _ _ _ _ (by decide) (by decide) ih
      · by_cases h3 : c = '\n'
        · subst h3
          exact parseStrAux_esc _ _ _ _ _ (by decide) (by decide) ih
        · by_cases h4 : c = '\r'
          · subst h4
            exact parseStrAux_esc _ _ _ _ _ (by decide) (by decide) ih
          · by_cases h5 : c = '\t'
            · subst h5
              exact parseStrAux_esc _ _ _ _ _ (by decide) (by decide) ih
            · by_cases h6 : c.toNat = 8
              · have hc : c = Char.ofNat 8 := by rw [← h6, Char.ofNat_toNat]
                subst hc
                exact parseStrAux_esc _ _ _ _ _ (by decide) (by decide) ih
              · by_cases h7 : c.toNat = 12
                · have hc : c = Char.ofNat 12 := by rw [← h7, Char.ofNat_toNat]
                  subst hc
                  exact parseStrAux_esc _ _ _ _ _ (by decide) (by decide) ih
                · by_cases h8 : c.toNat < 32
                  · have hdiv : c.toNat / 16 < 16 := by omega
                    have hmod : c.toNat % 16 < 16 := Nat.mod_lt _ (by omega)
                    rw [show escapeChar c = ['\\', 'u', '0', '0',
                          hexDigitChar (c.toNat / 16), hexDigitChar (c.toNat % 16)] by
                      simp [escapeChar, h1, h2, h3, h4, h5, h6, h7, h8]]
                    have := parseStrAux_hex '0' '0' (hexDigitChar (c.toNat / 16))
                      (hexDigitChar (c.toNat % 16)) (escapeList cs ++ '"' :: rest) cs rest
                      0 0 (c.toNat / 16) (c.toNat % 16) (by decide) (by decide)
                      (hexVal_hexDigitChar _ hdiv) (hexVal_hexDigitChar _ hmod) ih
                    rw [show ('\\' :: 'u' :: '0' :: '0' :: hexDigitChar (c.toNat / 16) ::
                          hexDigitChar (c.toNat % 16) :: (escapeList cs ++ '"' :: rest))
                        = ['\\', 'u', '0', '0', hexDigitChar (c.toNat / 16),
                            hexDigitChar (c.toNat % 16)] ++ (escapeList cs ++ '"' :: rest)
                        from rfl] at this
                    rw [this]
                    rw [show (4096 * 0 + 256 * 0 + 16 * (c.toNat / 16) + c.toNat % 16)
                          = 16 * (c.toNat / 16) + c.toNat % 16 by omega]
                    rw [char_eq_of_toNat_lt32 c h8]
                  · rw [show escapeChar c = [c] by
                      simp [escapeChar, h1, h2, h3, h4, h5, h6, h7, h8]]
                    exact parseStrAux_lit c _ cs rest h1 h2 ih

theorem hexDigitChar_ne_nl (m : Nat) (h : m < 16) : hexDigitChar m ≠ '\n' := by
  interval_cases m <;> decide

theorem nl_not_mem_escapeChar (c : Char) : '\n' ∉ escapeChar c := by
  unfold escapeChar
  by_cases h1 : c = '"'
  · simp [h1]
  · by_cases h2 : c = '\\'
    · simp [h1, h2]
    · by_cases h3 : c = '\n'
      · simp [h1, h2, h3]
      · by_cases h4 : c = '\r'
        · simp [h1, h2, h3, h4]
        · by_cases h5 : c = '\t'
          · simp [h1, h2, h3, h4, h5]
          · by_cases h6 : c.toNat = 8
            · simp [h1, h2, h3, h4, h5, h6]
            · by_cases h7 : c.toNat = 12
              · simp [h1, h2, h3, h4, h5, h6, h7]
              · by_cases h8 : c.toNat < 32
                · simp only [h1, h2, h3, h4, h5, h6, h7, h8, if_neg, if_pos,
                    if_false, if_true]
                  intro hmem
                  simp only [List.mem_cons, List.not_mem_nil, or_false] at hmem
                  rcases hmem with h | h | h | h | h | h
                  · exact absurd h (by decide)
                  · exact absurd h (by decide)
                  · exact absurd h (by decide)
                  · exact absurd h (by decide)
                  · exact hexDigitChar_ne_nl _ (by omega) h.symm
                  · exact hexDigitChar_ne_nl _ (Nat.mod_lt _ (by omega)) h.symm
                · simp only [h1, h2, h3, h4, h5, h6, h7, h8, if_neg, if_false]
                  intro hmem
                  have := List.mem_singleton.mp hmem
                  rw [← this] at h8
                  exact h8 (by decide)

theorem nl_not_mem_escapeList (s : List Char) : '\n' ∉ escapeList s := by
  induction s with
  | nil => simp [escapeList]
  | cons c cs ih =>
    simp only [escapeList, List.mem_append]
    rintro (h | h)
    · exact nl_not_mem_escapeChar c h
    · exact ih h

theorem nl_not_mem_encStringData (s : List Char) : '\n' ∉ encStringData s := by
  simp only [encStringData, List.mem_cons, List.mem_append, List.mem_singleton]
  rintro (h | h | h)
  · exact absurd h (by decide)
  · exact nl_not_mem_escapeList s h
  · exact absurd h (by decide)

/-! ## Line framing

Segment files hold one record per line, each line terminated by a single
newline character.  `splitLines` models `BufReader::lines` (terminators
stripped), `takeLine` models one `read_line` call (terminator kept). -/

def splitLines : List Char → List (List Char)
  | [] => []
  | c :: cs =>
    if c = '\n' then [] :: splitLines cs
    else
      match splitLines cs with
      | [] => [[c]]
      | l :: ls => (c :: l) :: ls

def takeLine : List Char → List Char
  | [] => []
  | c :: cs => if c = '\n' then ['\n'] else c :: takeLine cs

/-- `seek(SeekFrom::Start(pos))` followed by one `read_line`. -/
def readLineAt (content : List Char) (pos : Nat) : List Char :=
  takeLine (content.drop pos)

theorem splitLines_line (l : List Char) (rest : List Char) (h : '\n' ∉ l) :
    splitLines (l ++ '\n' :: rest) = l :: splitLines rest := by
  induction l with
  | nil => simp [splitLines]
  | cons c cs ih =>
    simp only [List.mem_cons, not_or] at h
    have hc : ¬ c = '\n' := fun hc => h.1 hc.symm
    simp only [List.cons_append, splitLines, if_neg hc, List.append_eq, ih h.2]

theorem takeLine_line (l : List Char) (rest : List Char) (h : '\n' ∉ l) :
    takeLine (l ++ '\n' :: rest) = l ++ ['\n'] := by
  induction l with
  | nil => simp [takeLine]
  | cons c cs ih =>
    simp only [List.mem_cons, not_or] at h
    have hc : ¬ c = '\n' := fun hc => h.1 hc.symm
    simp only [List.cons_append, takeLine, if_neg hc, List.append_eq, ih h.2]

theorem takeLine_append_of_mem (l : List Char) (rest : List Char) (h : '\n' ∈ l) :
    takeLine (l ++ rest) = takeLine l := by
  induction l with
  | nil => simp at h
  | cons c cs ih =>
    by_cases hc : c = '\n'
    · simp [takeLine, hc]
    · have : '\n' ∈ cs := by
        rcases List.mem_cons.mp h with h' | h'
        · exact absurd h'.symm hc
        · exact h'
      simp [takeLine, hc, ih this]

/-! ## Records

`enum Op { Set { key, value }, Rm { key } }` from `engine/kvs.rs`, with its
`serde_json` externally-tagged representation. -/

inductive Op where
  | set (key value : String)
  | rm (key : String)
deriving DecidableEq

def isWs (c : Char) : Bool := c == ' ' || c == '\n' || c == '\t' || c == '\r'

def wsOnly (cs : List Char) : Bool := cs.all isWs

def expectChar (c : Char) : List Char → Option (List Char)
  | [] => none
  | x :: rest => if x = c then some rest else none

def parseJsonString : List Char → Option (List Char × List Char)
  | [] => none
  | c :: rest => if c = '"' then parseStrAux rest else none

/-- `serde_json::to_string` of one record: a single line of JSON. -/
def encOp : Op → List Char
  | .set k v =>
    [lbrace] ++ litString "Set" ++ [':', lbrace] ++ litString "key" ++ [':']
      ++ encStringData k.data ++ [','] ++ litString "value" ++ [':']
      ++ encStringData v.data ++ [rbrace, rbrace]
  | .rm k =>
    [lbrace] ++ litString "Rm" ++ [':', lbrace] ++ litString "key" ++ [':']
      ++ encStringData k.data ++ [rbrace, rbrace]

/-- `serde_json::from_str::<Op>` restricted to the grammar this program
writes: exactly one externally tagged record, optionally surrounded by
whitespace (`from_str` accepts trailing whitespace and nothing else). -/
def decodeOp (input : List Char) : Option Op :=
  let cs := input.dropWhile isWs
  (expectChar lbrace cs).bind fun r0 =>
  (parseJsonString r0).bind fun tg =>
  (expectChar ':' tg.2).bind fun r2 =>
  (expectChar lbrace r2).bind fun r3 =>
  (parseJsonString r3).bind fun f1 =>
  if f1.1 = "key".data then
    (expectChar ':' f1.2).bind fun r5 =>
    (parseJsonString r5).bind fun kk =>
    if tg.1 = "Set".data then
      (expectChar ',' kk.2).bind fun r7 =>
      (parseJsonString r7).bind fun f2 =>
      if f2.1 = "value".data then
        (expectChar ':' f2.2).bind fun r9 =>
        (parseJsonString r9).bind fun vv =>
        (expectChar rbrace vv.2).bind fun r11 =>
        (expectChar rbrace r11).bind fun r12 =>
        if wsOnly r12 then some (Op.set (String.mk kk.1) (String.mk vv.1)) else none
      else none
    else if tg.1 = "Rm".data then
      (expectChar rbrace kk.2).bind fun r7 =>
      (expectChar rbrace r7).bind fun r8 =>
      if wsOnly r8 then some (Op.rm (String.mk kk.1)) else none
    else none
  else none

theorem expectChar_self (c : Char) (rest : List Char) :
    expectChar c (c :: rest) = some rest := by
  simp [expectChar]

theorem parseJsonString_enc (s : List Char) (rest : List Char) :
    parseJsonString (encStringData s ++ rest) = some (s, rest) := by
  show parseJsonString ('"' :: (escapeList s ++ ['"']) ++ rest) = _
  have : ('"' :: (escapeList s ++ ['"'])) ++ rest
      = '"' :: (escapeList s ++ '"' :: rest) := by
    simp
  rw [this]
  simp [parseJsonString, parseStrAux_escape]

theorem parseJsonString_lit (s : String) (h : escapeList s.data = s.data)
    (rest : List Char) : parseJsonString (litString s ++ rest) = some (s.data, rest) := by
  have : litString s ++ rest = encStringData s.data ++ rest := by
    simp [litString, encStringData, h]
  rw [this]
  exact parseJsonString_enc s.data rest

theorem dropWhile_isWs_cons (c : Char) (rest : List Char) (h : isWs c = false) :
    List.dropWhile isWs (c :: rest) = c :: rest := by
  rw [List.dropWhile_cons, h]
  simp

theorem decodeOp_enc_set (k v : String) (tail : List Char) (ht : wsOnly tail = true) :
    decodeOp (encOp (.set k v) ++ tail) = some (.set k v) := by
  have hlit1 : escapeList ("Set".data) = "Set".data := by decide
  have hlit2 : escapeList ("key".data) = "key".data := by decide
  have hlit3 : escapeList ("value".data) = "value".data := by decide
  simp only [encOp, List.append_assoc, List.cons_append, List.nil_append]
  simp only [decodeOp]
  rw [dropWhile_isWs_cons _ _ (by rfl)]
  simp only [expectChar_self, Option.some_bind, parseJsonString_lit _ hlit1,
    parseJsonString_lit _ hlit2, parseJsonString_lit _ hlit3, parseJsonString_enc, ht]
  simp [expectChar_self]

theorem decodeOp_enc_rm (k : String) (tail : List Char) (ht : wsOnly tail = true) :
    decodeOp (encOp (.rm k) ++ tail) = some (.rm k) := by
  have hlit1 : escapeList ("Rm".data) = "Rm".data := by decide
  have hlit2 : escapeList ("key".data) = "key".data := by decide
  have hSet : ("Rm".data = "Set".data) = False := by decide
  simp only [encOp, List.append_assoc, List.cons_append, List.nil_append]
  simp only [decodeOp]
  rw [dropWhile_isWs_cons _ _ (by rfl)]
  simp only [expectChar_self, Option.some_bind, parseJsonString_lit _ hlit1,
    parseJsonString_lit _ hlit2, parseJsonString_enc, ht, hSet]
  simp [expectChar_self]

theorem decodeOp_enc (op : Op) (tail : List Char) (ht : wsOnly tail = true) :
    decodeOp (encOp op ++ tail) = some op := by
  cases op with
  | set k v => exact decodeOp_enc_set k v tail ht
  | rm k => exact decodeOp_enc_rm k tail ht

theorem decodeOp_enc_nil (op : Op) : decodeOp (encOp op) = some op := by
  have := decodeOp_enc op [] (by decide)
  simpa using this

theorem nl_not_mem_encOp (op : Op) : '\n' ∉ encOp op := by
  cases op with
  | set k v =>
    simp only [encOp, litString, List.mem_append, List.mem_cons, List.mem_singleton,
      List.not_mem_nil]
    intro h
    rcases h with ((((((((h | h) | h) | h) | h) | h) | h) | h) | h) <;>
      first
        | exact absurd h (by decide)
        | (rcases h with h | h | h | h <;> first
            | exact absurd h (by decide)
            | exact nl_not_mem_encStringData _ h
            | exact absurd (by simpa using h) (by decide))
        | exact nl_not_mem_encStringData _ h
  | rm k =>
    simp only [encOp, litString, List.mem_append, List.mem_cons, List.mem_singleton,
      List.not_mem_nil]
    intro h
    rcases h with (((((h | h) | h) | h) | h) | h) <;>
      first
        | exact absurd h (by decide)
        | (rcases h with h | h | h | h <;> first
            | exact absurd h (by decide)
            | exact nl_not_mem_encStringData _ h
            | exact absurd (by simpa using h) (by decide))
        | exact nl_not_mem_encStringData _ h

/-! ## Rendered segment contents

A segment file written by this program is the concatenation of encoded
records, each followed by one newline. -/

def renderOps : List Op → List Char
  | [] => []
  | op :: rest => encOp op ++ '\n' :: renderOps rest

theorem renderOps_append (a b : List Op) :
    renderOps (a ++ b) = renderOps a ++ renderOps b := by
  induction a with
  | nil => simp [renderOps]
  | cons op rest ih => simp [renderOps, ih]

theorem splitLines_renderOps_append (ops : List Op) (tail : List Char) :
    splitLines (renderOps ops ++ tail) = ops.map encOp ++ splitLines tail := by
  induction ops with
  | nil => simp [renderOps]
  | cons op rest ih =>
    have : renderOps (op :: rest) ++ tail = encOp op ++ '\n' :: (renderOps rest ++ tail) := by
      simp [renderOps]
    rw [this, splitLines_line _ _ (nl_not_mem_encOp op), ih]
    simp

theorem splitLines_renderOps (ops : List Op) :
    splitLines (renderOps ops) = ops.map encOp := by
  have := splitLines_renderOps_append ops []
  simpa [splitLines] using this

/-- The record whose encoded line starts at character offset `off` of a
rendered segment. -/
def lineStartOp : List Op → Nat → Option Op
  | [], _ => none
  | op :: rest, off =>
    if off = 0 then some op
    else if off < (encOp op).length + 1 then none
    else lineStartOp rest (off - ((encOp op).length + 1))

theorem readLineAt_renderOps (ops : List Op) (off : Nat) (op : Op)
    (h : lineStartOp ops off = some op) :
    readLineAt (renderOps ops) off = encOp op ++ ['\n'] := by
  induction ops generalizing off with
  | nil => simp [lineStartOp] at h
  | cons o rest ih =>
    by_cases h0 : off = 0
    · subst h0
      simp only [lineStartOp, if_pos rfl, if_true, Option.some.injEq] at h
      have hop : o = op := by simpa using h
      subst hop
      show takeLine ((renderOps (o :: rest)).drop 0) = _
      rw [List.drop_zero]
      show takeLine (encOp o ++ '\n' :: renderOps rest) = _
      exact takeLine_line _ _ (nl_not_mem_encOp o)
    · by_cases h1 : off < (encOp o).length + 1
      · simp [lineStartOp, h0, h1] at h
      · simp only [lineStartOp, if_neg h0, if_neg h1] at h
        have hlen : (encOp o ++ ['\n']).length ≤ off := by
          simp only [List.length_append, List.length_singleton]
          omega
        show takeLine ((renderOps (o :: rest)).drop off) = _
        have hsp : renderOps (o :: rest) = (encOp o ++ ['\n']) ++ renderOps rest := by
          simp [renderOps]
        rw [hsp, List.drop_append_eq_append_drop, List.drop_eq_nil_of_le hlen,
          List.nil_append]
        have harith : off - (encOp o ++ ['\n']).length = off - ((encOp o).length + 1) := by
          simp
        rw [harith]
        exact ih _ h

theorem lineStartOp_append (pre : List Op) (op : Op) (post : List Op) :
    lineStartOp (pre ++ op :: post) (renderOps pre).length = some op := by
  induction pre with
  | nil => simp [renderOps, lineStartOp]
  | cons p pre' ih =>
    have hlen : (renderOps (p :: pre')).length
        = (encOp p).length + 1 + (renderOps pre').length := by
      simp [renderOps]
      omega
    simp only [List.cons_append, lineStartOp, hlen]
    have h0 : ¬ ((encOp p).length + 1 + (renderOps pre').length = 0) := by omega
    have h1 : ¬ ((encOp p).length + 1 + (renderOps pre').length < (encOp p).length + 1) := by
      omega
    rw [if_neg h0, if_neg h1]
    have : (encOp p).length + 1 + (renderOps pre').length - ((encOp p).length + 1)
        = (renderOps pre').length := by omega
    rw [this]
    exact ih

/-! ## Error taxonomy (`src/error.rs`)

Payloads carrying foreign error values (`io::Error`, `serde_json::Error`,
...) are modelled as their display strings. -/

inductive KvsError where
  | IoError (msg : String)
  | SerdeError (msg : String)
  | KeyNotFound
  | LogLoadError
  | UnexpectedType
  | StringError (s : String)
  | Utf8Error (msg : String)
  | ParseIntError (msg : String)
deriving DecidableEq

/-- The `#[fail(display = ...)]` rendering of each error. -/
def KvsError.display : KvsError → List Char
  | .IoError m => "io error ".data ++ m.data
  | .SerdeError m => "serde json error ".data ++ m.data
  | .KeyNotFound => "Key not found".data
  | .LogLoadError => "log failed to load".data
  | .UnexpectedType => "unexpected command type".data
  | .StringError s => s.data
  | .Utf8Error m => "utf 8 error: ".data ++ m.data
  | .ParseIntError m => "parse int error: ".data ++ m.data

/-- How an engine call can fail: a `Result::Err` value, or a Rust panic
(`expect`/`unwrap` firing), which aborts the calling thread. -/
inductive Failure where
  | err (e : KvsError)
  | crash (msg : String)
deriving DecidableEq

/-! ## Store state (`engine/kvs.rs`)

`disk` is the `log/` directory: pairs of segment version and file content,
kept in ascending version order (segment files are created with strictly
increasing versions; `traverse_dir` sorts by version anyway, modelled by
`sortDisk`).  The remaining fields are `KvStoreWriter`'s fields; the
per-reader handle cache only caches open files and has no observable
effect on a single handle, so it is not part of the state. -/

structure InMemIndex where
  version : Nat
  start_pos : Nat
deriving DecidableEq

structure Store where
  disk : List (Nat × List Char)
  entry_to_index : List (String × InMemIndex)
  current_ver : Nat
  current_len : Nat
  old_log_len : Nat
  min_version : Nat
deriving DecidableEq

/-- `const THRESHOLD: usize = 40 * 1024` -/
def THRESHOLD : Nat := 40 * 1024

/-- `const ACTIVE_THRESHOLD: usize = 1024` -/
def ACTIVE_THRESHOLD : Nat := 1024

/-- Append bytes to segment file `v` (writes through the active-segment
handle always target an existing file). -/
def diskAppend (d : List (Nat × List Char)) (v : Nat) (cs : List Char) :
    List (Nat × List Char) :=
  d.map fun p => if p.1 = v then (p.1, p.2 ++ cs) else p

/-- `OpenOptions::new().create(true).append(true)`: creates the file empty
when absent, keeps it otherwise. -/
def createFile (d : List (Nat × List Char)) (v : Nat) : List (Nat × List Char) :=
  if (alLookup d v).isSome then d else d ++ [(v, [])]

def insertByVer (p : Nat × List Char) : List (Nat × List Char) → List (Nat × List Char)
  | [] => [p]
  | q :: rest => if p.1 ≤ q.1 then p :: q :: rest else q :: insertByVer p rest

/-- `traverse_dir` sorts the parsed versions ascending
(`version_list.sort_unstable()`); directory enumeration order is
irrelevant after that, so the model sorts the file list by version. -/
def sortDisk : List (Nat × List Char) → List (Nat × List Char)
  | [] => []
  | p :: rest => insertByVer p (sortDisk rest)

/-! ## Replay (`KvStoreWriter::new`, lines 227-264)

For each line of each segment in ascending version order: decode a record;
a `Set` upserts `(version, line start offset)`; a `Rm` removes the key,
and `.expect("remove an invalid key from a map")` panics when the key is
absent.  `offset += s.len() + 1` after every line. -/

def replayLines (v : Nat) :
    List (String × InMemIndex) → Nat → List (List Char) →
    Except Failure (List (String × InMemIndex))
  | idx, _, [] => .ok idx
  | idx, off, l :: ls =>
    match decodeOp l with
    | none => .error (.err (.SerdeError "invalid record"))
    | some (.set k _) =>
      replayLines v (alInsert idx k ⟨v, off⟩) (off + (l.length + 1)) ls
    | some (.rm k) =>
      if (alLookup idx k).isSome then
        replayLines v (alErase idx k) (off + (l.length + 1)) ls
      else .error (.crash "remove an invalid key from a map")

def loadDisk :
    List (String × InMemIndex) → List (Nat × List Char) →
    Except Failure (List (String × InMemIndex))
  | idx, [] => .ok idx
  | idx, (v, c) :: rest =>
    match replayLines v idx 0 (splitLines c) with
    | .error e => .error e
    | .ok idx' => loadDisk idx' rest

/-- `KvStoreWriter::new` (open): sort the segment files, sum their sizes
into `old_log_len`, replay them in ascending version order, then create
`<max_version + 1>.log` as the active segment (version 1 for an empty
directory). -/
def KvStoreWriter.new (files : List (Nat × List Char)) : Except Failure Store :=
  let ordered := sortDisk files
  let total_len := (files.map fun p => p.2.length).sum
  let max_old_version := ((ordered.map Prod.fst).getLast?).getD 0
  match loadDisk [] ordered with
  | .error e => .error e
  | .ok idx =>
    let ver := max_old_version + 1
    .ok { disk := createFile ordered ver
          entry_to_index := idx
          current_ver := ver
          current_len := 0
          old_log_len := total_len
          min_version := 0 }

/-! ## Reader (`KvStoreReader::get`, `KvStore::get`)

`get` looks the key up in `entry_to_index`; when present it seeks to the
recorded offset of the recorded segment, reads one line, decodes it, and
returns the value of a `Set` record; an `Rm` record yields
`KvsError::UnexpectedType`.  The per-reader cache `ver_to_file` and its
`clean()` step only manage open handles and do not change what is read. -/

def KvStoreReader.get (s : Store) (e : InMemIndex) : Except KvsError String :=
  match alLookup s.disk e.version with
  | none => .error (.IoError "No such file or directory")
  | some c =>
    match decodeOp (readLineAt c e.start_pos) with
    | none => .error (.SerdeError "invalid record")
    | some (.rm _) => .error .UnexpectedType
    | some (.set _ value) => .ok value

def KvStore.get (s : Store) (key : String) : Except KvsError (Option String) :=
  match alLookup s.entry_to_index key with
  | none => .ok none
  | some e =>
    match KvStoreReader.get s e with
    | .error er => .error er
    | .ok v => .ok (some v)

/-! ## Compaction (`KvStoreWriter::compact`, lines 380-448)

The compactor re-reads every segment file in ascending version order into
an in-memory `HashMap<String, String>` (`dict.remove(&key).unwrap()`
panics on a `Rm` whose key is not in the dictionary), deleting each
segment file right after it has been read, then writes one `Set` line per
dictionary entry into the freshly created segment `<current_ver + 1>.log`,
rebuilds `entry_to_index` from scratch, flushes, publishes the new
minimum live version and resets the old-log byte counter. -/

def dictLines :
    List (String × String) → List (List Char) →
    Except Failure (List (String × String))
  | dict, [] => .ok dict
  | dict, l :: ls =>
    match decodeOp l with
    | none => .error (.err (.SerdeError "invalid record"))
    | some (.set k v) => dictLines (alInsert dict k v) ls
    | some (.rm k) =>
      if (alLookup dict k).isSome then dictLines (alErase dict k) ls
      else .error (.crash "called Option::unwrap on a None value")

/-- Value-level replay of a whole directory, file by file in list order. -/
def dictDisk :
    List (String × String) → List (Nat × List Char) →
    Except Failure (List (String × String))
  | dict, [] => .ok dict
  | dict, (_, c) :: rest =>
    match dictLines dict (splitLines c) with
    | .error e => .error e
    | .ok dict' => dictDisk dict' rest

/-- The `for ver in order` loop of `compact`: read one segment into the
dictionary, then `fs::remove_file` it; a decode failure returns early,
leaving the current file still on disk. -/
def compactLoop (disk : List (Nat × List Char)) (dict : List (String × String)) :
    List (Nat × List Char) →
    List (Nat × List Char) × Except Failure (List (String × String))
  | [] => (disk, .ok dict)
  | (v, c) :: rest =>
    match dictLines dict (splitLines c) with
    | .error e => (disk, .error e)
    | .ok dict' => compactLoop (alErase disk v) dict' rest

def compactRecords (dict : List (String × String)) : List Op :=
  dict.map fun p => Op.set p.1 p.2

/-- The write-back loop of `compact`: one `Set` line per live pair, with
`entry_to_index` entries pointing at the running offset in the new
segment. -/
def compactIndex (ver : Nat) :
    Nat → List (String × InMemIndex) → List (String × String) →
    List (String × InMemIndex)
  | _, idx, [] => idx
  | off, idx, (k, v) :: rest =>
    compactIndex ver (off + ((encOp (.set k v)).length + 1))
      (alInsert idx k ⟨ver, off⟩) rest

def KvStoreWriter.compact (s : Store) : Store × Option Failure :=
  let base := sortDisk s.disk
  let ver1 := s.current_ver + 1
  let disk0 := createFile s.disk ver1
  match compactLoop disk0 [] base with
  | (diskE, .error e) =>
    ({ s with current_ver := ver1, disk := diskE }, some e)
  | (disk1, .ok dict) =>
    let content := renderOps (compactRecords dict)
    ({ s with
        current_ver := ver1
        disk := diskAppend disk1 ver1 content
        entry_to_index := compactIndex ver1 0 [] dict
        min_version := ver1
        old_log_len := 0 }, none)

/-- `flush` (lines 360-377): move `current_len` into `old_log_len`,
compact when the old-log counter crossed `THRESHOLD` (`self.compact()?`
propagates its failure), then bump the version and open a fresh active
segment. -/
def KvStoreWriter.flush (s : Store) : Store × Option Failure :=
  let s1 := { s with old_log_len := s.old_log_len + s.current_len, current_len := 0 }
  if THRESHOLD ≤ s1.old_log_len then
    match KvStoreWriter.compact s1 with
    | (s2, some f) => (s2, some f)
    | (s2, none) =>
      let ver := s2.current_ver + 1
      ({ s2 with current_ver := ver, disk := createFile s2.disk ver }, none)
  else
    let ver := s1.current_ver + 1
    ({ s1 with current_ver := ver, disk := createFile s1.disk ver }, none)

/-- `to_flush` (lines 349-356). -/
def KvStoreWriter.to_flush (s : Store) : Store × Option Failure :=
  if ACTIVE_THRESHOLD ≤ s.current_len then KvStoreWriter.flush s else (s, none)

/-- `set` (lines 291-324): serialise `Set{key,value}` plus newline, record
the end-of-file position, append and flush, update `entry_to_index`, then
`to_flush`. -/
def KvStoreWriter.set (s : Store) (key value : String) : Store × Option Failure :=
  let serial := encOp (.set key value) ++ ['\n']
  let current_len := s.current_len + serial.length
  let pos := ((alLookup s.disk s.current_ver).getD []).length
  let disk := diskAppend s.disk s.current_ver serial
  let entry_to_index := alInsert s.entry_to_index key ⟨s.current_ver, pos⟩
  KvStoreWriter.to_flush
    { s with disk := disk, entry_to_index := entry_to_index, current_len := current_len }

/-- `remove` (lines 326-346): an absent key fails with `KeyNotFound`
before anything is written; otherwise the key is deleted from
`entry_to_index` first, and the `Rm{key}` record is appended and flushed
afterwards. -/
def KvStoreWriter.remove (s : Store) (key : String) : Store × Option Failure :=
  if (alLookup s.entry_to_index key).isSome = false then
    (s, some (.err .KeyNotFound))
  else
    let entry_to_index := alErase s.entry_to_index key
    let serial := encOp (.rm key) ++ ['\n']
    let current_len := s.current_len + serial.length
    let disk := diskAppend s.disk s.current_ver serial
    KvStoreWriter.to_flush
      { s with disk := disk, entry_to_index := entry_to_index, current_len := current_len }

/-! ## Disk-event traces

The orderings claimed by the spec for `compact` and `remove` are about the
sequence of externally visible steps, so those two procedures are also
rendered as event traces, following the same control flow as the
state-level definitions above. -/

inductive CEvent where
  | createSeg (v : Nat)
  | readSeg (v : Nat)
  | deleteSeg (v : Nat)
  | writeSeg (v : Nat)
  | flushSeg (v : Nat)
deriving DecidableEq

/-- Events of the `for ver in order` loop of `compact`: each file is read
and then immediately deleted; a decode failure aborts the loop. -/
def compactLoopTrace (dict : List (String × String)) :
    List (Nat × List Char) → List CEvent
  | [] => []
  | (v, c) :: rest =>
    match dictLines dict (splitLines c) with
    | .error _ => [.readSeg v]
    | .ok dict' => .readSeg v :: .deleteSeg v :: compactLoopTrace dict' rest

/-- The disk events of one `compact` call, in program order: create the
output segment, read-and-delete every old segment, then write the
compacted records and flush them. -/
def compactTrace (s : Store) : List CEvent :=
  let base := sortDisk s.disk
  let ver1 := s.current_ver + 1
  match dictDisk [] base with
  | .error _ => .createSeg ver1 :: compactLoopTrace [] base
  | .ok _ =>
    .createSeg ver1 :: (compactLoopTrace [] base ++ [.writeSeg ver1, .flushSeg ver1])

inductive REvent where
  | indexRemove
  | appendRecord
  | persistRecord
deriving DecidableEq

/-- The steps of `remove` on a present key, in program order (lines
326-346): delete the key from `entry_to_index` under the write lock, then
serialise and append `Rm{key}`, then flush it. -/
def removeTrace (s : Store) (key : String) : List REvent :=
  if (alLookup s.entry_to_index key).isSome = false then []
  else [.indexRemove, .appendRecord, .persistRecord]

/-! ## Wire protocol (`src/protocol.rs`) and server loop (`src/server.rs`) -/

inductive Request where
  | get (key : String)
  | set (key value : String)
  | rm (key : String)
deriving DecidableEq

inductive GetResponse where
  | Ok (v : Option String)
  | Err (msg : String)
deriving DecidableEq

inductive SetResponse where
  | Ok
  | Err (msg : String)
deriving DecidableEq

inductive RmResponse where
  | Ok
  | Err (msg : String)
deriving DecidableEq

/-- `serde_json::from_slice::<Request>` on the same grammar as `Op`, plus
the `Get` variant. -/
def decodeRequest (input : List Char) : Option Request :=
  let cs := input.dropWhile isWs
  (expectChar lbrace cs).bind fun r0 =>
  (parseJsonString r0).bind fun tg =>
  (expectChar ':' tg.2).bind fun r2 =>
  (expectChar lbrace r2).bind fun r3 =>
  (parseJsonString r3).bind fun f1 =>
  if f1.1 = "key".data then
    (expectChar ':' f1.2).bind fun r5 =>
    (parseJsonString r5).bind fun kk =>
    if tg.1 = "Set".data then
      (expectChar ',' kk.2).bind fun r7 =>
      (parseJsonString r7).bind fun f2 =>
      if f2.1 = "value".data then
        (expectChar ':' f2.2).bind fun r9 =>
        (parseJsonString r9).bind fun vv =>
        (expectChar rbrace vv.2).bind fun r11 =>
        (expectChar rbrace r11).bind fun r12 =>
        if wsOnly r12 then some (Request.set (String.mk kk.1) (String.mk vv.1)) else none
      else none
    else if tg.1 = "Get".data then
      (expectChar rbrace kk.2).bind fun r7 =>
      (expectChar rbrace r7).bind fun r8 =>
      if wsOnly r8 then some (Request.get (String.mk kk.1)) else none
    else if tg.1 = "Rm".data then
      (expectChar rbrace kk.2).bind fun r7 =>
      (expectChar rbrace r7).bind fun r8 =>
      if wsOnly r8 then some (Request.rm (String.mk kk.1)) else none
    else none
  else none

/-- `serde_json::to_string` of a `GetResponse`: newtype variant `Ok`
holding `Option<String>` (`null` or a string), or `Err` holding the error
message. -/
def encGetResponse : GetResponse → List Char
  | .Ok none => [lbrace] ++ litString "Ok" ++ [':'] ++ "null".data ++ [rbrace]
  | .Ok (some v) => [lbrace] ++ litString "Ok" ++ [':'] ++ encStringData v.data ++ [rbrace]
  | .Err m => [lbrace] ++ litString "Err" ++ [':'] ++ encStringData m.data ++ [rbrace]

/-- `serde_json::to_string` of a `SetResponse`: the unit variant `Ok`
serialises as the bare string `"Ok"`. -/
def encSetResponse : SetResponse → List Char
  | .Ok => litString "Ok"
  | .Err m => [lbrace] ++ litString "Err" ++ [':'] ++ encStringData m.data ++ [rbrace]

def encRmResponse : RmResponse → List Char
  | .Ok => litString "Ok"
  | .Err m => [lbrace] ++ litString "Err" ++ [':'] ++ encStringData m.data ++ [rbrace]

/-- `From<Result<Option<String>>> for GetResponse`. -/
def getResponseOf : Except KvsError (Option String) → GetResponse
  | .ok v => .Ok v
  | .error e => .Err (String.mk e.display)

/-- `handle_stream` (`src/server.rs`, lines 8-74): read one line
(`read_until(b'\n')`), pop the final byte, decode the request, run the
engine call, serialise the response and write it back with a single
`write_all` — no terminator is appended; the write side is then shut
down.  Decode failures answer through `handle_error`, which writes the
bare display string of the error.  A panic inside the engine kills the
worker thread before anything is written.  The result is the updated
store plus the list of chunks written to the stream. -/
def handle_stream (input : List Char) (s : Store) : Store × List (List Char) :=
  let buffer := (takeLine input).dropLast
  match decodeRequest buffer with
  | none => (s, [KvsError.display (.SerdeError "invalid request")])
  | some (.get k) => (s, [encGetResponse (getResponseOf (KvStore.get s k))])
  | some (.set k v) =>
    match KvStoreWriter.set s k v with
    | (s', some (.crash _)) => (s', [])
    | (s', some (.err e)) => (s', [encSetResponse (.Err (String.mk e.display))])
    | (s', none) => (s', [encSetResponse .Ok])
  | some (.rm k) =>
    match KvStoreWriter.remove s k with
    | (s', some (.crash _)) => (s', [])
    | (s', some (.err e)) => (s', [encRmResponse (.Err (String.mk e.display))])
    | (s', none) => (s', [encRmResponse .Ok])

theorem alLookup_erase_self {κ α : Type} [DecidableEq κ] (l : List (κ × α)) (k : κ)
    (h : (alKeys l).Nodup) : alLookup (alErase l k) k = none := by
  induction l with
  | nil => rfl
  | cons p rest ih =>
    simp only [alKeys, List.map_cons, List.nodup_cons] at h
    by_cases hk : k = p.1
    · simp only [alErase, if_pos hk]
      apply alLookup_eq_none
      rw [hk]
      exact h.1
    · simp only [alErase, if_neg hk, alLookup, if_neg hk]
      exact ih h.2

theorem alLookup_erase_ne {κ α : Type} [DecidableEq κ] (l : List (κ × α)) (k k' : κ)
    (h : k' ≠ k) : alLookup (alErase l k) k' = alLookup l k' := by
  induction l with
  | nil => rfl
  | cons p rest ih =>
    by_cases hk : k = p.1
    · simp only [alErase, if_pos hk, alLookup]
      rw [if_neg (fun hc => h (hc.trans hk.symm))]
    · by_cases hk' : k' = p.1
      · simp [alErase, if_neg hk, alLookup, hk']
      · simp [alErase, if_neg hk, alLookup, hk', ih]

/-! ## Command sequences

A client-visible history is a list of `set`/`remove` calls against one
store handle.  `runCmds` executes it from a freshly opened store in an
empty directory (`KvStore::open` on a fresh dir yields `initStore`);
failed calls leave the returned state in place, as the Rust caller keeps
using the same store after an `Err`. -/

inductive Cmd where
  | set (key value : String)
  | rm (key : String)
deriving DecidableEq

def stepCmd (s : Store) : Cmd → Store × Option Failure
  | .set k v => KvStoreWriter.set s k v
  | .rm k => KvStoreWriter.remove s k

/-- The store produced by `KvStore::open` on an empty directory: one empty
active segment `1.log`. -/
def initStore : Store :=
  { disk := [(1, [])], entry_to_index := [], current_ver := 1,
    current_len := 0, old_log_len := 0, min_version := 0 }

theorem open_empty_dir : KvStoreWriter.new [] = .ok initStore := rfl

def runCmds (cmds : List Cmd) : Store :=
  cmds.foldl (fun s c => (stepCmd s c).1) initStore

/-- All calls in the history returned `Ok`. -/
def runCleanAux : Store → List Cmd → Bool
  | _, [] => true
  | s, c :: rest =>
    match stepCmd s c with
    | (s', none) => runCleanAux s' rest
    | (_, some _) => false

def runClean (cmds : List Cmd) : Bool := runCleanAux initStore cmds

/-- The spec's description of `get`: the value of the last `set(k, _)`
in the history unless a later `remove(k)` follows it. -/
def specGetAux (k : String) : Option String → List Cmd → Option String
  | acc, [] => acc
  | acc, .set k' v :: rest => specGetAux k (if k' = k then some v else acc) rest
  | acc, .rm k' :: rest => specGetAux k (if k' = k then none else acc) rest

def specGet (cmds : List Cmd) (k : String) : Option String := specGetAux k none cmds

/-- The live key/value map of a history. -/
def specRunAux : List (String × String) → List Cmd → List (String × String)
  | m, [] => m
  | m, .set k v :: rest => specRunAux (alInsert m k v) rest
  | m, .rm k :: rest => specRunAux (alErase m k) rest

def specRun (cmds : List Cmd) : List (String × String) := specRunAux [] cmds

theorem alLookup_specRunAux (cmds : List Cmd) :
    ∀ (m : List (String × String)) (k : String), (alKeys m).Nodup →
    alLookup (specRunAux m cmds) k = specGetAux k (alLookup m k) cmds := by
  induction cmds with
  | nil => intro m k _; rfl
  | cons c rest ih =>
    intro m k hm
    cases c with
    | set k' v =>
      simp only [specRunAux, specGetAux]
      rw [ih _ k (alKeys_nodup_insert _ _ _ hm)]
      by_cases hk : k' = k
      · subst hk
        rw [alLookup_insert_self, if_pos rfl]
      · rw [alLookup_insert_ne _ _ _ _ (fun hc => hk hc.symm), if_neg hk]
    | rm k' =>
      simp only [specRunAux, specGetAux]
      rw [ih _ k (alKeys_nodup_erase _ _ hm)]
      by_cases hk : k' = k
      · subst hk
        rw [alLookup_erase_self _ _ hm, if_pos rfl]
      · rw [alLookup_erase_ne _ _ _ (fun hc => hk hc.symm), if_neg hk]

theorem alLookup_specRun (cmds : List Cmd) (k : String) :
    alLookup (specRun cmds) k = specGet cmds k :=
  alLookup_specRunAux cmds [] k (by simp [alKeys])

/-! ## The spec's error taxonomy (spec section 7)

Modelled from the spec: section 7 names seven error kinds, among them a
`Corruption` kind ("Index points to a non-`Set` record, or to an
unparseable record") that has no counterpart constructor in
`src/error.rs`; the remaining kinds map one-to-one onto the code's
constructors by their descriptions. -/

inductive SpecErrorKind where
  | Io
  | Serialisation
  | KeyNotFound
  | LogLoad
  | Corruption
  | UnexpectedType
  | StringKind
deriving DecidableEq

/-- Modelled from the spec: the section 7 kind of each code-level error
(`Io` for I/O failures, `Serialisation` for malformed encodings,
`KeyNotFound`, `LogLoad`, `UnexpectedType`, `StringError`).  No code
constructor corresponds to the spec's `Corruption`. -/
def specKindOf : KvsError → SpecErrorKind
  | .IoError _ => .Io
  | .SerdeError _ => .Serialisation
  | .KeyNotFound => .KeyNotFound
  | .LogLoadError => .LogLoad
  | .UnexpectedType => .UnexpectedType
  | .StringError _ => .StringKind
  | .Utf8Error _ => .Serialisation
  | .ParseIntError _ => .Serialisation

/-- `max_old_version` as computed by `KvStoreWriter::new`: the last entry
of the ascending version list, `0` when the directory is empty. -/
def maxVersion (files : List (Nat × List Char)) : Nat :=
  (((sortDisk files).map Prod.fst).getLast?).getD 0

deriving instance DecidableEq for Except

/-! ## Structural facts about the disk representation -/

theorem sortDisk_sorted_id (d : List (Nat × List Char))
    (h : List.Pairwise (fun a b => a < b) (d.map Prod.fst)) : sortDisk d = d := by
  induction d with
  | nil => rfl
  | cons p rest ih =>
    simp only [List.map_cons, List.pairwise_cons] at h
    simp only [sortDisk, ih h.2]
    cases rest with
    | nil => rfl
    | cons q rest' =>
      have : p.1 < q.1 := h.1 q.1 (by simp)
      simp [insertByVer, Nat.le_of_lt this]

theorem diskAppend_map_fst (d : List (Nat × List Char)) (v : Nat) (cs : List Char) :
    (diskAppend d v cs).map Prod.fst = d.map Prod.fst := by
  induction d with
  | nil => rfl
  | cons p rest ih =>
    by_cases hp : p.1 = v
    · simp [diskAppend, hp] at ih ⊢
      exact ih
    · simp [diskAppend, hp] at ih ⊢
      exact ih

theorem disk_split (d : List (Nat × List Char)) (cur : Nat)
    (hs : List.Pairwise (fun a b => a < b) (d.map Prod.fst))
    (hb : ∀ p ∈ d, p.1 ≤ cur)
    (ha : (alLookup d cur).isSome = true) :
    ∃ init c, d = init ++ [(cur, c)] ∧ (∀ p ∈ init, p.1 < cur) ∧ cur ∉ alKeys init := by
  induction d with
  | nil => simp [alLookup] at ha
  | cons p rest ih =>
    simp only [List.map_cons, List.pairwise_cons] at hs
    by_cases hp : p.1 = cur
    · subst hp
      have hrest : rest = [] := by
        cases rest with
        | nil => rfl
        | cons q rest' =>
          exfalso
          have h1 : p.1 < q.1 := hs.1 q.1 (by simp)
          have h2 : q.1 ≤ p.1 := hb q (by simp)
          omega
      subst hrest
      exact ⟨[], p.2, by rfl, fun q hq => absurd hq (List.not_mem_nil q),
        by simp [alKeys]⟩
    · have ha' : (alLookup rest cur).isSome = true := by
        have hne : ¬ cur = p.1 := fun hc => hp hc.symm
        simpa [alLookup, hne] using ha
      obtain ⟨init, c, hd, hlt, hmem⟩ :=
        ih hs.2 (fun q hq => hb q (by simp [hq])) ha'
      refine ⟨p :: init, c, by simp [hd], ?_, ?_⟩
      · intro q hq
        rcases List.mem_cons.mp hq with rfl | hq'
        · exact lt_of_le_of_ne (hb q (by simp)) hp
        · exact hlt q hq'
      · simp only [alKeys, List.map_cons, List.mem_cons, not_or]
        exact ⟨fun hc => hp hc.symm, hmem⟩

theorem diskAppend_last (init : List (Nat × List Char)) (cur : Nat) (c cs : List Char)
    (hmem : cur ∉ alKeys init) :
    diskAppend (init ++ [(cur, c)]) cur cs = init ++ [(cur, c ++ cs)] := by
  induction init with
  | nil => simp [diskAppend]
  | cons p rest ih =>
    simp only [alKeys, List.map_cons, List.mem_cons, not_or] at hmem
    have hp : ¬ p.1 = cur := fun hc => hmem.1 hc.symm
    simp only [List.cons_append, diskAppend, List.map_cons, if_neg hp]
    have := ih (by simpa [alKeys] using hmem.2)
    simp only [diskAppend] at this
    rw [this]

theorem loadDisk_append (idx : List (String × InMemIndex))
    (xs ys : List (Nat × List Char)) :
    loadDisk idx (xs ++ ys) =
      match loadDisk idx xs with
      | .error e => .error e
      | .ok idx' => loadDisk idx' ys := by
  induction xs generalizing idx with
  | nil => simp [loadDisk]
  | cons p rest ih =>
    obtain ⟨v, c⟩ := p
    simp only [List.cons_append, loadDisk]
    cases replayLines v idx 0 (splitLines c) with
    | error e => rfl
    | ok idx' => exact ih idx'

theorem dictDisk_append (dict : List (String × String))
    (xs ys : List (Nat × List Char)) :
    dictDisk dict (xs ++ ys) =
      match dictDisk dict xs with
      | .error e => .error e
      | .ok dict' => dictDisk dict' ys := by
  induction xs generalizing dict with
  | nil => simp [dictDisk]
  | cons p rest ih =>
    obtain ⟨v, c⟩ := p
    simp only [List.cons_append, dictDisk]
    cases dictLines dict (splitLines c) with
    | error e => rfl
    | ok dict' => exact ih dict'

/-- Total length contribution of a list of lines, one newline each. -/
def sumLens (ls : List (List Char)) : Nat := (ls.map fun l => l.length + 1).sum

theorem sumLens_map_encOp (ops : List Op) :
    sumLens (ops.map encOp) = (renderOps ops).length := by
  induction ops with
  | nil => simp [sumLens, renderOps]
  | cons op rest ih =>
    simp only [List.map_cons, sumLens, List.sum_cons, renderOps, List.length_append,
      List.length_cons]
    simp only [sumLens] at ih
    omega

theorem replayLines_append (v : Nat) (idx : List (String × InMemIndex)) (off : Nat)
    (ls ms : List (List Char)) :
    replayLines v idx off (ls ++ ms) =
      match replayLines v idx off ls with
      | .error e => .error e
      | .ok idx' => replayLines v idx' (off + sumLens ls) ms := by
  induction ls generalizing idx off with
  | nil => simp [replayLines, sumLens]
  | cons l rest ih =>
    have harith : off + (l.length + 1) + sumLens rest = off + sumLens (l :: rest) := by
      simp only [sumLens, List.map_cons, List.sum_cons]
      omega
    cases hdec : decodeOp l with
    | none => simp [replayLines, hdec]
    | some op =>
      cases op with
      | set k vv =>
        simp only [List.cons_append, replayLines, hdec, List.append_eq]
        rw [ih]
        simp only [harith]
      | rm k =>
        by_cases hk : (alLookup idx k).isSome = true
        · simp only [List.cons_append, replayLines, hdec, if_pos hk, List.append_eq]
          rw [ih]
          simp only [harith]
        · simp only [Bool.not_eq_true] at hk
          simp [replayLines, hdec, hk]

theorem dictLines_append (dict : List (String × String)) (ls ms : List (List Char)) :
    dictLines dict (ls ++ ms) =
      match dictLines dict ls with
      | .error e => .error e
      | .ok dict' => dictLines dict' ms := by
  induction ls generalizing dict with
  | nil => simp [dictLines]
  | cons l rest ih =>
    cases hdec : decodeOp l with
    | none => simp [dictLines, hdec]
    | some op =>
      cases op with
      | set k vv =>
        simp only [List.cons_append, dictLines, hdec, List.append_eq]
        rw [ih]
      | rm k =>
        by_cases hk : (alLookup dict k).isSome = true
        · simp only [List.cons_append, dictLines, hdec, if_pos hk, List.append_eq]
          rw [ih]
        · simp only [Bool.not_eq_true] at hk
          simp [dictLines, hdec, hk]

theorem takeLine_ends_nl_mem (xs : List Char) (l : List Char)
    (h : takeLine xs = l ++ ['\n']) : '\n' ∈ xs := by
  induction xs generalizing l with
  | nil =>
    simp only [takeLine] at h
    exact absurd h.symm (List.append_ne_nil_of_right_ne_nil l (by simp))
  | cons c cs ih =>
    by_cases hc : c = '\n'
    · simp [hc]
    · simp only [takeLine, if_neg hc] at h
      cases l with
      | nil =>
        simp only [List.nil_append, List.cons.injEq] at h
        exact absurd h.1 hc
      | cons x l' =>
        simp only [List.cons_append, List.cons.injEq] at h
        exact List.mem_cons_of_mem _ (ih l' h.2)

theorem readLineAt_le_length (c : List Char) (off : Nat) (l : List Char)
    (h : readLineAt c off = l ++ ['\n']) : off ≤ c.length := by
  by_contra hlt
  have : c.drop off = [] := List.drop_eq_nil_of_le (by omega)
  simp only [readLineAt, this, takeLine] at h
  exact absurd h.symm (List.append_ne_nil_of_right_ne_nil l (by simp))

/-- A pointer that resolves to a complete line keeps resolving to it after
the file grows at the end. -/
theorem readLineAt_append (c X : List Char) (off : Nat) (l : List Char)
    (h : readLineAt c off = l ++ ['\n']) : readLineAt (c ++ X) off = l ++ ['\n'] := by
  have hle : off ≤ c.length := readLineAt_le_length c off l h
  have hmem : '\n' ∈ c.drop off := takeLine_ends_nl_mem _ _ h
  have hdrop : (c ++ X).drop off = c.drop off ++ X := by
    rw [List.drop_append_eq_append_drop]
    have : off - c.length = 0 := by omega
    rw [this, List.drop_zero]
  rw [readLineAt, hdrop, takeLine_append_of_mem _ _ hmem]
  exact h

/-- Replaying a run of `Set` lines (a compacted segment) builds exactly the
index `compact` creates while writing it. -/
theorem replayLines_sets (v : Nat) (dict : List (String × String)) :
    ∀ (idx : List (String × InMemIndex)) (off : Nat),
    replayLines v idx off ((compactRecords dict).map encOp) =
      .ok (compactIndex v off idx dict) := by
  induction dict with
  | nil => intro idx off; rfl
  | cons p rest ih =>
    intro idx off
    obtain ⟨k, val⟩ := p
    simp only [compactRecords, List.map_cons, replayLines, decodeOp_enc_nil, compactIndex]
    have := ih (alInsert idx k ⟨v, off⟩) (off + ((encOp (.set k val)).length + 1))
    simp only [compactRecords] at this
    exact this

theorem dictLines_sets (dict : List (String × String)) :
    ∀ (d0 : List (String × String)),
    dictLines d0 ((compactRecords dict).map encOp) =
      .ok (dict.foldl (fun m p => alInsert m p.1 p.2) d0) := by
  induction dict with
  | nil => intro d0; rfl
  | cons p rest ih =>
    intro d0
    obtain ⟨k, val⟩ := p
    simp only [compactRecords, List.map_cons, dictLines, decodeOp_enc_nil, List.foldl_cons]
    have := ih (alInsert d0 k val)
    simp only [compactRecords] at this
    exact this

theorem foldl_insert_self (dict : List (String × String)) :
    ∀ (pre : List (String × String)),
    (alKeys (pre ++ dict)).Nodup →
    dict.foldl (fun m p => alInsert m p.1 p.2) pre = pre ++ dict := by
  induction dict with
  | nil => intro pre _; simp
  | cons p rest ih =>
    intro pre hnd
    obtain ⟨k, val⟩ := p
    have hmem : k ∉ alKeys pre := by
      intro hc
      have : ¬ (alKeys (pre ++ (k, val) :: rest)).Nodup := by
        simp only [alKeys, List.map_append, List.map_cons]
        intro hnd'
        have := (List.nodup_append.mp hnd').2.2
        exact this hc (by simp)
      exact this hnd
    simp only [List.foldl_cons]
    rw [alInsert_of_not_mem _ _ _ hmem]
    have hnd' : (alKeys ((pre ++ [(k, val)]) ++ rest)).Nodup := by
      simpa [alKeys] using hnd
    rw [ih _ hnd']
    simp

theorem pairwise_append_max (l : List Nat) (x : Nat)
    (h : List.Pairwise (fun a b => a < b) l) (hx : ∀ a ∈ l, a < x) :
    List.Pairwise (fun a b => a < b) (l ++ [x]) := by
  induction l with
  | nil => simp
  | cons a rest ih =>
    simp only [List.pairwise_cons] at h
    simp only [List.cons_append, List.pairwise_cons]
    constructor
    · intro b hb
      rcases List.mem_append.mp hb with hb | hb
      · exact h.1 b hb
      · rcases List.mem_singleton.mp hb with rfl
        exact hx a (by simp)
    · exact ih h.2 (fun b hb => hx b (by simp [hb]))

/-! ## The store invariant

`Inv s M` ties a reachable store state to its live key/value map `M`:
segment files hold rendered records; versions ascend and the active
segment `current_ver.log` is the latest; replaying the directory with the
open procedure reproduces `entry_to_index` exactly, and with the
compactor's value-level replay reproduces `M`; and every index entry
points at the `Set` line carrying its key's live value. -/

def PtrOk (d : List (Nat × List Char)) (pe : String × InMemIndex)
    (pv : String × String) : Prop :=
  pe.1 = pv.1 ∧ ∃ c, alLookup d pe.2.version = some c ∧
    readLineAt c pe.2.start_pos = encOp (Op.set pe.1 pv.2) ++ ['\n']

theorem ptrOk_fst (d : List (Nat × List Char)) :
    ∀ a b, PtrOk d a b → a.1 = b.1 := fun _ _ h => h.1

structure StoreInv (s : Store) (M : List (String × String)) : Prop where
  wf : ∀ p ∈ s.disk, ∃ ops, p.2 = renderOps ops
  sorted : List.Pairwise (fun a b => a < b) (s.disk.map Prod.fst)
  bounded : ∀ p ∈ s.disk, p.1 ≤ s.current_ver
  active : (alLookup s.disk s.current_ver).isSome = true
  load_eq : loadDisk [] (sortDisk s.disk) = .ok s.entry_to_index
  dict_eq : dictDisk [] (sortDisk s.disk) = .ok M
  rel : List.Forall₂ (PtrOk s.disk) s.entry_to_index M

theorem get_of_inv (s : Store) (M : List (String × String)) (h : StoreInv s M)
    (k : String) : KvStore.get s k = .ok (alLookup M k) := by
  rcases hl : alLookup s.entry_to_index k with _ | e
  · have hm : alLookup M k = none := forall2_lookup_none (ptrOk_fst s.disk) h.rel hl
    simp [KvStore.get, hl, hm]
  · obtain ⟨val, hm, hptr⟩ := forall2_lookup_some (ptrOk_fst s.disk) h.rel hl
    obtain ⟨_, c, hc, hline⟩ := hptr
    have hdec : decodeOp (readLineAt c e.start_pos) = some (Op.set k val) := by
      rw [hline]
      exact decodeOp_enc _ _ (by decide)
    simp [KvStore.get, hl, KvStoreReader.get, hc, hdec, hm]

/-- `StoreInv` does not mention the byte counters or the published minimum
version, so it transports along any change confined to them. -/
theorem storeInv_of_fields (s s' : Store) (M : List (String × String))
    (h : StoreInv s M) (hd : s'.disk = s.disk)
    (hi : s'.entry_to_index = s.entry_to_index)
    (hv : s'.current_ver = s.current_ver) : StoreInv s' M := by
  refine ⟨?_, ?_, ?_, ?_, ?_, ?_, ?_⟩
  · rw [hd]; exact h.wf
  · rw [hd]; exact h.sorted
  · rw [hd, hv]; exact h.bounded
  · rw [hd, hv]; exact h.active
  · rw [hd, hi]; exact h.load_eq
  · rw [hd]; exact h.dict_eq
  · rw [hd, hi]; exact h.rel

theorem mem_alKeys_iff {κ α : Type} (l : List (κ × α)) (k : κ) :
    k ∈ alKeys l ↔ ∃ p ∈ l, p.1 = k := by
  simp [alKeys, List.mem_map]

theorem fresh_not_mem (s : Store) (M : List (String × String)) (h : StoreInv s M) :
    s.current_ver + 1 ∉ alKeys s.disk := by
  intro hc
  obtain ⟨p, hp, hp1⟩ := (mem_alKeys_iff _ _).mp hc
  have := h.bounded p hp
  omega

/-- Opening a fresh empty active segment with the next version preserves the
invariant; this covers the tail of `flush` and the tail of the open
procedure. -/
theorem extendActive (s : Store) (M : List (String × String)) (h : StoreInv s M)
    (s' : Store) (hd : s'.disk = createFile s.disk (s.current_ver + 1))
    (hi : s'.entry_to_index = s.entry_to_index)
    (hv : s'.current_ver = s.current_ver + 1) : StoreInv s' M := by
  have hfresh := fresh_not_mem s M h
  have hlook : alLookup s.disk (s.current_ver + 1) = none := alLookup_eq_none _ _ hfresh
  have hcreate : createFile s.disk (s.current_ver + 1)
      = s.disk ++ [(s.current_ver + 1, [])] := by
    simp [createFile, hlook]
  have hsort : sortDisk s.disk = s.disk := sortDisk_sorted_id _ h.sorted
  have hd' : s'.disk = s.disk ++ [(s.current_ver + 1, [])] := hd.trans hcreate
  have hsorted' : List.Pairwise (fun a b => a < b) (s'.disk.map Prod.fst) := by
    rw [hd', List.map_append]
    exact pairwise_append_max _ _ h.sorted
      (fun a ha => by
        obtain ⟨p, hp, hp1⟩ := List.mem_map.mp ha
        have := h.bounded p hp
        omega)
  refine ⟨?_, hsorted', ?_, ?_, ?_, ?_, ?_⟩
  · intro p hp
    rw [hd'] at hp
    rcases List.mem_append.mp hp with hp | hp
    · exact h.wf p hp
    · rcases List.mem_singleton.mp hp with rfl
      exact ⟨[], rfl⟩
  · intro p hp
    rw [hd'] at hp
    rw [hv]
    rcases List.mem_append.mp hp with hp | hp
    · have := h.bounded p hp
      omega
    · rcases List.mem_singleton.mp hp with rfl
      simp
  · rw [hd', hv, alLookup_append_right _ _ _ hfresh]
    simp [alLookup]
  · have hl0 : loadDisk [] s.disk = .ok s.entry_to_index := by
      rw [← hsort]; exact h.load_eq
    rw [sortDisk_sorted_id _ hsorted', hd', loadDisk_append, hl0, hi]
    simp [loadDisk, replayLines, splitLines]
  · have hl0 : dictDisk [] s.disk = .ok M := by
      rw [← hsort]; exact h.dict_eq
    rw [sortDisk_sorted_id _ hsorted', hd', dictDisk_append, hl0]
    simp [dictDisk, dictLines, splitLines]
  · rw [hd', hi]
    refine forall2_imp ?_ h.rel
    intro a b hab
    obtain ⟨hfst, c, hc, hline⟩ := hab
    exact ⟨hfst, c, by rw [alLookup_append_left _ _ _ (by simp [hc])]; exact hc, hline⟩

theorem compactLoop_snd (files : List (Nat × List Char)) :
    ∀ (disk : List (Nat × List Char)) (dict : List (String × String)),
    (compactLoop disk dict files).2 = dictDisk dict files := by
  induction files with
  | nil => intro disk dict; rfl
  | cons p rest ih =>
    intro disk dict
    obtain ⟨v, c⟩ := p
    simp only [compactLoop, dictDisk]
    cases dictLines dict (splitLines c) with
    | error e => rfl
    | ok dict' => exact ih _ dict'

theorem compactLoop_fst (files : List (Nat × List Char)) :
    ∀ (extra : List (Nat × List Char)) (dict d2 : List (String × String)),
    dictDisk dict files = .ok d2 →
    (compactLoop (files ++ extra) dict files).1 = extra := by
  induction files with
  | nil => intro extra dict d2 _; rfl
  | cons p rest ih =>
    intro extra dict d2 hdict
    obtain ⟨v, c⟩ := p
    simp only [dictDisk] at hdict
    rcases hdl : dictLines dict (splitLines c) with e | dict'
    · rw [hdl] at hdict
      simp at hdict
    · rw [hdl] at hdict
      simp only [List.cons_append, compactLoop, hdl]
      have herase : alErase ((v, c) :: (rest ++ extra)) v = rest ++ extra := by
        simp [alErase]
      rw [herase]
      exact ih extra dict' d2 hdict

theorem dictLines_nodup (ls : List (List Char)) :
    ∀ (d d' : List (String × String)), dictLines d ls = .ok d' →
    (alKeys d).Nodup → (alKeys d').Nodup := by
  induction ls with
  | nil =>
    intro d d' h hd
    simp only [dictLines] at h
    cases h
    exact hd
  | cons l rest ih =>
    intro d d' h hd
    cases hdec : decodeOp l with
    | none =>
      simp only [dictLines, hdec] at h
      cases h
    | some op =>
      cases op with
      | set k v =>
        simp only [dictLines, hdec] at h
        exact ih _ _ h (alKeys_nodup_insert _ _ _ hd)
      | rm k =>
        by_cases hk : (alLookup d k).isSome = true
        · simp only [dictLines, hdec, if_pos hk] at h
          exact ih _ _ h (alKeys_nodup_erase _ _ hd)
        · simp only [Bool.not_eq_true] at hk
          simp [dictLines, hdec, hk] at h
  
theorem dictDisk_nodup (files : List (Nat × List Char)) :
    ∀ (d d' : List (String × String)), dictDisk d files = .ok d' →
    (alKeys d).Nodup → (alKeys d').Nodup := by
  induction files with
  | nil =>
    intro d d' h hd
    simp only [dictDisk] at h
    cases h
    exact hd
  | cons p rest ih =>
    intro d d' h hd
    obtain ⟨v, c⟩ := p
    simp only [dictDisk] at h
    rcases hdl : dictLines d (splitLines c) with e | dict'
    · rw [hdl] at h
      simp at h
    · rw [hdl] at h
      exact ih _ _ h (dictLines_nodup _ _ _ hdl hd)

theorem compactRecords_append (a b : List (String × String)) :
    compactRecords (a ++ b) = compactRecords a ++ compactRecords b := by
  simp [compactRecords]

/-- The index written by the compaction write-back loop points every live
pair at its own `Set` line of the new segment. -/
theorem compactIndex_rel (v1 : Nat) (all : List (String × String))
    (hnd : (alKeys all).Nodup) :
    ∀ (dict0 pre : List (String × String)) (acc : List (String × InMemIndex)),
    pre ++ dict0 = all →
    List.Forall₂ (PtrOk [(v1, renderOps (compactRecords all))]) acc pre →
    List.Forall₂ (PtrOk [(v1, renderOps (compactRecords all))])
      (compactIndex v1 (renderOps (compactRecords pre)).length acc dict0) all := by
  intro dict0
  induction dict0 with
  | nil =>
    intro pre acc hall hacc
    simp only [List.append_nil] at hall
    subst hall
    simpa [compactIndex] using hacc
  | cons p rest ih =>
    intro pre acc hall hacc
    obtain ⟨k, val⟩ := p
    have hkeys : alKeys all = alKeys pre ++ k :: alKeys rest := by
      rw [← hall]
      simp [alKeys]
    have hkpre : k ∉ alKeys pre := by
      rw [hkeys] at hnd
      have := List.nodup_append.mp hnd
      intro hc
      exact this.2.2 hc (by simp)
    have hrecords : compactRecords all
        = compactRecords pre ++ Op.set k val :: compactRecords rest := by
      rw [← hall, compactRecords_append]
      simp [compactRecords]
    have hline : readLineAt (renderOps (compactRecords all))
        (renderOps (compactRecords pre)).length = encOp (Op.set k val) ++ ['\n'] := by
      apply readLineAt_renderOps
      rw [hrecords]
      exact lineStartOp_append _ _ _
    have hR : PtrOk [(v1, renderOps (compactRecords all))]
        (k, ⟨v1, (renderOps (compactRecords pre)).length⟩) (k, val) := by
      refine ⟨rfl, renderOps (compactRecords all), by simp [alLookup], hline⟩
    have hacc' : List.Forall₂ (PtrOk [(v1, renderOps (compactRecords all))])
        (alInsert acc k ⟨v1, (renderOps (compactRecords pre)).length⟩)
        (pre ++ [(k, val)]) := by
      have := forall2_insert (ptrOk_fst _) hacc hR
      rwa [alInsert_of_not_mem pre k val hkpre] at this
    have hall' : (pre ++ [(k, val)]) ++ rest = all := by
      simpa using hall
    have harith : (renderOps (compactRecords (pre ++ [(k, val)]))).length
        = (renderOps (compactRecords pre)).length + ((encOp (Op.set k val)).length + 1) := by
      rw [compactRecords_append, renderOps_append]
      simp [compactRecords, renderOps]
    have := ih (pre ++ [(k, val)])
      (alInsert acc k ⟨v1, (renderOps (compactRecords pre)).length⟩) hall' hacc'
    rw [harith] at this
    simpa [compactIndex] using this

/-- `compact` under the invariant: it cannot fail, it leaves exactly one
segment on disk holding one `Set` line per live pair, and the invariant
still holds with the same live map. -/
theorem compact_ok (s : Store) (M : List (String × String)) (h : StoreInv s M) :
    KvStoreWriter.compact s =
      ({ s with current_ver := s.current_ver + 1,
                disk := [(s.current_ver + 1, renderOps (compactRecords M))],
                entry_to_index := compactIndex (s.current_ver + 1) 0 [] M,
                min_version := s.current_ver + 1,
                old_log_len := 0 }, none) ∧
    StoreInv (KvStoreWriter.compact s).1 M := by
  have hsort : sortDisk s.disk = s.disk := sortDisk_sorted_id _ h.sorted
  have hfresh := fresh_not_mem s M h
  have hlook : alLookup s.disk (s.current_ver + 1) = none := alLookup_eq_none _ _ hfresh
  have hcreate : createFile s.disk (s.current_ver + 1)
      = s.disk ++ [(s.current_ver + 1, [])] := by
    simp [createFile, hlook]
  have hdict : dictDisk [] s.disk = .ok M := by
    rw [← hsort]; exact h.dict_eq
  have hsnd : (compactLoop (s.disk ++ [(s.current_ver + 1, [])]) [] s.disk).2
      = .ok M := by
    rw [compactLoop_snd]
    exact hdict
  have hfst : (compactLoop (s.disk ++ [(s.current_ver + 1, [])]) [] s.disk).1
      = [(s.current_ver + 1, [])] :=
    compactLoop_fst _ _ _ _ hdict
  have hpair : compactLoop (s.disk ++ [(s.current_ver + 1, [])]) [] s.disk
      = ([(s.current_ver + 1, [])], .ok M) := by
    rw [Prod.ext_iff]
    exact ⟨hfst, hsnd⟩
  have happend : diskAppend [(s.current_ver + 1, [])] (s.current_ver + 1)
      (renderOps (compactRecords M)) =
      [(s.current_ver + 1, renderOps (compactRecords M))] := by
    simp [diskAppend]
  have hnodupM : (alKeys M).Nodup :=
    dictDisk_nodup _ _ _ hdict (by simp [alKeys])
  have heq : KvStoreWriter.compact s =
      ({ s with current_ver := s.current_ver + 1,
                disk := [(s.current_ver + 1, renderOps (compactRecords M))],
                entry_to_index := compactIndex (s.current_ver + 1) 0 [] M,
                min_version := s.current_ver + 1,
                old_log_len := 0 }, none) := by
    simp only [KvStoreWriter.compact, hsort, hcreate, hpair, happend]
  refine ⟨heq, ?_⟩
  rw [heq]
  have hcontent : splitLines (renderOps (compactRecords M))
      = (compactRecords M).map encOp := splitLines_renderOps _
  refine ⟨?_, ?_, ?_, ?_, ?_, ?_, ?_⟩
  · intro p hp
    rcases List.mem_singleton.mp hp with rfl
    exact ⟨compactRecords M, rfl⟩
  · simp
  · intro p hp
    rcases List.mem_singleton.mp hp with rfl
    simp
  · simp [alLookup]
  · show loadDisk [] (sortDisk [(s.current_ver + 1, renderOps (compactRecords M))]) = _
    rw [show sortDisk [(s.current_ver + 1, renderOps (compactRecords M))]
        = [(s.current_ver + 1, renderOps (compactRecords M))] by simp [sortDisk, insertByVer]]
    simp only [loadDisk, hcontent, replayLines_sets]
  · show dictDisk [] (sortDisk [(s.current_ver + 1, renderOps (compactRecords M))]) = _
    rw [show sortDisk [(s.current_ver + 1, renderOps (compactRecords M))]
        = [(s.current_ver + 1, renderOps (compactRecords M))] by simp [sortDisk, insertByVer]]
    simp only [dictDisk, hcontent, dictLines_sets]
    rw [foldl_insert_self M [] (by simpa using hnodupM)]
    simp [dictDisk]
  · have := compactIndex_rel (s.current_ver + 1) M hnodupM M [] [] (by simp)
      List.Forall₂.nil
    simpa [renderOps, compactRecords] using this

theorem flush_ok (s : Store) (M : List (String × String)) (h : StoreInv s M) :
    (KvStoreWriter.flush s).2 = none ∧ StoreInv (KvStoreWriter.flush s).1 M := by
  have h1 : StoreInv
      { s with old_log_len := s.old_log_len + s.current_len, current_len := 0 } M :=
    storeInv_of_fields _ _ _ h rfl rfl rfl
  by_cases hth : THRESHOLD ≤ s.old_log_len + s.current_len
  · rcases hc : KvStoreWriter.compact
        { s with old_log_len := s.old_log_len + s.current_len, current_len := 0 } with
      ⟨s2, f2⟩
    obtain ⟨heq, hinv⟩ := compact_ok _ M h1
    rw [hc] at heq hinv
    have hf2 : f2 = none := by
      have := congrArg Prod.snd heq
      simpa using this
    subst hf2
    have hflush : KvStoreWriter.flush s =
        ({ s2 with current_ver := s2.current_ver + 1,
                   disk := createFile s2.disk (s2.current_ver + 1) }, none) := by
      simp only [KvStoreWriter.flush, hc]
      rw [if_pos hth]
    rw [hflush]
    exact ⟨rfl, extendActive s2 M hinv _ rfl rfl rfl⟩
  · have hflush : KvStoreWriter.flush s =
        ({ s with old_log_len := s.old_log_len + s.current_len, current_len := 0,
                  current_ver := s.current_ver + 1,
                  disk := createFile s.disk (s.current_ver + 1) }, none) := by
      simp only [KvStoreWriter.flush]
      rw [if_neg hth]
    rw [hflush]
    exact ⟨rfl, extendActive _ M h1 _ rfl rfl rfl⟩

theorem to_flush_ok (s : Store) (M : List (String × String)) (h : StoreInv s M) :
    (KvStoreWriter.to_flush s).2 = none ∧ StoreInv (KvStoreWriter.to_flush s).1 M := by
  by_cases hth : ACTIVE_THRESHOLD ≤ s.current_len
  · simp only [KvStoreWriter.to_flush, if_pos hth]
    exact flush_ok s M h
  · have hid : KvStoreWriter.to_flush s = (s, none) := by
      simp only [KvStoreWriter.to_flush, if_neg hth]
    rw [hid]
    exact ⟨rfl, h⟩

theorem renderOps_single (op : Op) : renderOps [op] = encOp op ++ ['\n'] := rfl

/-- Appending one rendered record to the last (active) segment extends the
open-procedure replay by exactly one step at the end-of-file offset. -/
theorem load_step (init : List (Nat × List Char)) (cur : Nat) (ops : List Op) (op : Op)
    (idx idxnext : List (String × InMemIndex))
    (hload : loadDisk [] (init ++ [(cur, renderOps ops)]) = .ok idx)
    (hstep : replayLines cur idx (renderOps ops).length [encOp op] = .ok idxnext) :
    loadDisk [] (init ++ [(cur, renderOps (ops ++ [op]))]) = .ok idxnext := by
  rw [loadDisk_append] at hload ⊢
  rcases h0 : loadDisk [] init with e | idx0
  · rw [h0] at hload
    simp at hload
  · rw [h0] at hload
    simp only [loadDisk, splitLines_renderOps] at hload
    rcases h1 : replayLines cur idx0 0 ((ops).map encOp) with e | idxm
    · rw [h1] at hload
      simp at hload
    · rw [h1] at hload
      have hidx : idxm = idx := by
        cases hload
        rfl
      subst hidx
      simp only [loadDisk, splitLines_renderOps, List.map_append, List.map_cons,
        List.map_nil, replayLines_append, h1, sumLens_map_encOp, Nat.zero_add, hstep]

theorem dict_step (init : List (Nat × List Char)) (cur : Nat) (ops : List Op) (op : Op)
    (d dnext : List (String × String))
    (hload : dictDisk [] (init ++ [(cur, renderOps ops)]) = .ok d)
    (hstep : dictLines d [encOp op] = .ok dnext) :
    dictDisk [] (init ++ [(cur, renderOps (ops ++ [op]))]) = .ok dnext := by
  rw [dictDisk_append] at hload ⊢
  rcases h0 : dictDisk [] init with e | d0
  · rw [h0] at hload
    simp at hload
  · rw [h0] at hload
    simp only [dictDisk, splitLines_renderOps] at hload
    rcases h1 : dictLines d0 ((ops).map encOp) with e | dm
    · rw [h1] at hload
      simp at hload
    · rw [h1] at hload
      have hd : dm = d := by
        cases hload
        rfl
      subst hd
      simp only [dictDisk, splitLines_renderOps, List.map_append, List.map_cons,
        List.map_nil, dictLines_append, h1, hstep]

/-- Every pointer valid against the old directory stays valid after the
active segment grows at its end. -/
theorem ptrOk_extendFile (init : List (Nat × List Char)) (cur : Nat) (c X : List Char)
    (hmem : cur ∉ alKeys init) :
    ∀ a b, PtrOk (init ++ [(cur, c)]) a b → PtrOk (init ++ [(cur, c ++ X)]) a b := by
  intro a b hab
  obtain ⟨hfst, c₀, hc₀, hline⟩ := hab
  by_cases hm : a.2.version ∈ alKeys init
  · have hsome : (alLookup init a.2.version).isSome = true :=
      (alLookup_isSome_iff_mem _ _).mpr hm
    rw [alLookup_append_left _ _ _ hsome] at hc₀
    refine ⟨hfst, c₀, ?_, hline⟩
    rw [alLookup_append_left _ _ _ (by simp [hc₀])]
    exact hc₀
  · rw [alLookup_append_right _ _ _ hm] at hc₀
    by_cases hv : a.2.version = cur
    · have hcc : c₀ = c := by
        simp [alLookup, hv] at hc₀
        exact hc₀.symm
      subst hcc
      refine ⟨hfst, c₀ ++ X, ?_, ?_⟩
      · rw [alLookup_append_right _ _ _ hm]
        simp [alLookup, hv]
      · exact readLineAt_append _ _ _ _ hline
    · simp [alLookup, hv] at hc₀

/-- The freshly appended `Set` record's pointer resolves to that record. -/
theorem ptrOk_newRecord (init : List (Nat × List Char)) (cur : Nat) (ops : List Op)
    (k v : String) (hmem : cur ∉ alKeys init) :
    PtrOk (init ++ [(cur, renderOps (ops ++ [Op.set k v]))])
      (k, ⟨cur, (renderOps ops).length⟩) (k, v) := by
  refine ⟨rfl, renderOps (ops ++ [Op.set k v]), ?_, ?_⟩
  · rw [alLookup_append_right _ _ _ hmem]
    simp [alLookup]
  · show readLineAt (renderOps (ops ++ [Op.set k v])) (renderOps ops).length = _
    rw [renderOps_append, renderOps_single, readLineAt, List.drop_left]
    have : encOp (Op.set k v) ++ ['\n'] = encOp (Op.set k v) ++ '\n' :: [] := rfl
    rw [this, takeLine_line _ _ (nl_not_mem_encOp _)]

theorem set_ok (s : Store) (M : List (String × String)) (k v : String)
    (h : StoreInv s M) :
    (KvStoreWriter.set s k v).2 = none ∧
    StoreInv (KvStoreWriter.set s k v).1 (alInsert M k v) := by
  obtain ⟨init, c, hd, hlt, hmem⟩ :=
    disk_split s.disk s.current_ver h.sorted h.bounded h.active
  obtain ⟨ops, hops⟩ := h.wf (s.current_ver, c)
    (by rw [hd]; exact List.mem_append_right _ (by simp))
  have hco : c = renderOps ops := hops
  subst hco
  have hlook : alLookup s.disk s.current_ver = some (renderOps ops) := by
    rw [hd, alLookup_append_right _ _ _ hmem]
    simp [alLookup]
  have hdisk1 : diskAppend s.disk s.current_ver (encOp (Op.set k v) ++ ['\n'])
      = init ++ [(s.current_ver, renderOps (ops ++ [Op.set k v]))] := by
    rw [hd, diskAppend_last _ _ _ _ hmem, ← renderOps_single, ← renderOps_append]
  have hS1 : KvStoreWriter.set s k v = KvStoreWriter.to_flush
      { s with disk := init ++ [(s.current_ver, renderOps (ops ++ [Op.set k v]))],
               entry_to_index := alInsert s.entry_to_index k
                 ⟨s.current_ver, (renderOps ops).length⟩,
               current_len := s.current_len + (encOp (Op.set k v) ++ ['\n']).length } := by
    show KvStoreWriter.to_flush _ = _
    rw [hdisk1, hlook]
    rfl
  have hfst_eq : (init ++ [(s.current_ver,
      renderOps (ops ++ [Op.set k v]))]).map Prod.fst = s.disk.map Prod.fst := by
    rw [hd]
    simp
  have hsorted1 : List.Pairwise (fun a b => a < b)
      ((init ++ [(s.current_ver, renderOps (ops ++ [Op.set k v]))]).map Prod.fst) := by
    rw [hfst_eq]
    exact h.sorted
  have hload0 : loadDisk [] (init ++ [(s.current_ver, renderOps ops)])
      = .ok s.entry_to_index := by
    rw [← hd, ← sortDisk_sorted_id _ h.sorted]
    exact h.load_eq
  have hdict0 : dictDisk [] (init ++ [(s.current_ver, renderOps ops)]) = .ok M := by
    rw [← hd, ← sortDisk_sorted_id _ h.sorted]
    exact h.dict_eq
  have hDX : renderOps (ops ++ [Op.set k v])
      = renderOps ops ++ (encOp (Op.set k v) ++ ['\n']) := by
    rw [renderOps_append, renderOps_single]
  have hinv1 : StoreInv
      { s with disk := init ++ [(s.current_ver, renderOps (ops ++ [Op.set k v]))],
               entry_to_index := alInsert s.entry_to_index k
                 ⟨s.current_ver, (renderOps ops).length⟩,
               current_len := s.current_len + (encOp (Op.set k v) ++ ['\n']).length }
      (alInsert M k v) := by
    refine ⟨?_, hsorted1, ?_, ?_, ?_, ?_, ?_⟩
    · intro p hp
      rcases List.mem_append.mp hp with hp | hp
      · exact h.wf p (by rw [hd]; exact List.mem_append_left _ hp)
      · rcases List.mem_singleton.mp hp with rfl
        exact ⟨ops ++ [Op.set k v], rfl⟩
    · intro p hp
      rcases List.mem_append.mp hp with hp | hp
      · exact Nat.le_of_lt (hlt p hp)
      · rcases List.mem_singleton.mp hp with rfl
        exact Nat.le_refl _
    · rw [alLookup_append_right _ _ _ hmem]
      simp [alLookup]
    · show loadDisk [] (sortDisk _) = _
      rw [sortDisk_sorted_id _ hsorted1]
      exact load_step _ _ _ _ _ _ hload0
        (by simp [replayLines, decodeOp_enc_nil])
    · show dictDisk [] (sortDisk _) = _
      rw [sortDisk_sorted_id _ hsorted1]
      exact dict_step _ _ _ _ _ _ hdict0
        (by simp [dictLines, decodeOp_enc_nil])
    · show List.Forall₂ (PtrOk (init ++ [(s.current_ver,
        renderOps (ops ++ [Op.set k v]))])) _ _
      refine forall2_insert (ptrOk_fst _) ?_ (ptrOk_newRecord _ _ _ _ _ hmem)
      refine forall2_imp ?_ (hd ▸ h.rel)
      intro a b hab
      have := ptrOk_extendFile init s.current_ver (renderOps ops)
        (encOp (Op.set k v) ++ ['\n']) hmem a b hab
      rwa [← hDX] at this
  rw [hS1]
  exact to_flush_ok _ _ hinv1

theorem remove_ok (s : Store) (M : List (String × String)) (k : String)
    (h : StoreInv s M) (hk : (alLookup s.entry_to_index k).isSome = true) :
    (KvStoreWriter.remove s k).2 = none ∧
    StoreInv (KvStoreWriter.remove s k).1 (alErase M k) := by
  obtain ⟨init, c, hd, hlt, hmem⟩ :=
    disk_split s.disk s.current_ver h.sorted h.bounded h.active
  obtain ⟨ops, hops⟩ := h.wf (s.current_ver, c)
    (by rw [hd]; exact List.mem_append_right _ (by simp))
  have hco : c = renderOps ops := hops
  subst hco
  have hkM : (alLookup M k).isSome = true := by
    rw [alLookup_isSome_iff_mem] at hk ⊢
    rw [← forall2_keys (ptrOk_fst s.disk) h.rel]
    exact hk
  have hdisk1 : diskAppend s.disk s.current_ver (encOp (Op.rm k) ++ ['\n'])
      = init ++ [(s.current_ver, renderOps (ops ++ [Op.rm k]))] := by
    rw [hd, diskAppend_last _ _ _ _ hmem, ← renderOps_single, ← renderOps_append]
  have hS1 : KvStoreWriter.remove s k = KvStoreWriter.to_flush
      { s with disk := init ++ [(s.current_ver, renderOps (ops ++ [Op.rm k]))],
               entry_to_index := alErase s.entry_to_index k,
               current_len := s.current_len + (encOp (Op.rm k) ++ ['\n']).length } := by
    have hcond : ¬ ((alLookup s.entry_to_index k).isSome = false) := by
      simp [hk]
    simp only [KvStoreWriter.remove, if_neg hcond]
    rw [hdisk1]
  have hfst_eq : (init ++ [(s.current_ver,
      renderOps (ops ++ [Op.rm k]))]).map Prod.fst = s.disk.map Prod.fst := by
    rw [hd]
    simp
  have hsorted1 : List.Pairwise (fun a b => a < b)
      ((init ++ [(s.current_ver, renderOps (ops ++ [Op.rm k]))]).map Prod.fst) := by
    rw [hfst_eq]
    exact h.sorted
  have hload0 : loadDisk [] (init ++ [(s.current_ver, renderOps ops)])
      = .ok s.entry_to_index := by
    rw [← hd, ← sortDisk_sorted_id _ h.sorted]
    exact h.load_eq
  have hdict0 : dictDisk [] (init ++ [(s.current_ver, renderOps ops)]) = .ok M := by
    rw [← hd, ← sortDisk_sorted_id _ h.sorted]
    exact h.dict_eq
  have hDX : renderOps (ops ++ [Op.rm k])
      = renderOps ops ++ (encOp (Op.rm k) ++ ['\n']) := by
    rw [renderOps_append, renderOps_single]
  have hinv1 : StoreInv
      { s with disk := init ++ [(s.current_ver, renderOps (ops ++ [Op.rm k]))],
               entry_to_index := alErase s.entry_to_index k,
               current_len := s.current_len + (encOp (Op.rm k) ++ ['\n']).length }
      (alErase M k) := by
    refine ⟨?_, hsorted1, ?_, ?_, ?_, ?_, ?_⟩
    · intro p hp
      rcases List.mem_append.mp hp with hp | hp
      · exact h.wf p (by rw [hd]; exact List.mem_append_left _ hp)
      · rcases List.mem_singleton.mp hp with rfl
        exact ⟨ops ++ [Op.rm k], rfl⟩
    · intro p hp
      rcases List.mem_append.mp hp with hp | hp
      · exact Nat.le_of_lt (hlt p hp)
      · rcases List.mem_singleton.mp hp with rfl
        exact Nat.le_refl _
    · rw [alLookup_append_right _ _ _ hmem]
      simp [alLookup]
    · show loadDisk [] (sortDisk _) = _
      rw [sortDisk_sorted_id _ hsorted1]
      exact load_step _ _ _ _ _ _ hload0
        (by simp [replayLines, decodeOp_enc_nil, hk])
    · show dictDisk [] (sortDisk _) = _
      rw [sortDisk_sorted_id _ hsorted1]
      exact dict_step _ _ _ _ _ _ hdict0
        (by simp [dictLines, decodeOp_enc_nil, hkM])
    · show List.Forall₂ (PtrOk (init ++ [(s.current_ver,
        renderOps (ops ++ [Op.rm k]))])) _ _
      refine forall2_erase (ptrOk_fst _) ?_ k
      refine forall2_imp ?_ (hd ▸ h.rel)
      intro a b hab
      have := ptrOk_extendFile init s.current_ver (renderOps ops)
        (encOp (Op.rm k) ++ ['\n']) hmem a b hab
      rwa [← hDX] at this
  rw [hS1]
  exact to_flush_ok _ _ hinv1

theorem remove_absent (s : Store) (k : String)
    (hk : (alLookup s.entry_to_index k).isSome = false) :
    KvStoreWriter.remove s k = (s, some (.err .KeyNotFound)) := by
  simp [KvStoreWriter.remove, hk]

theorem initStore_inv : StoreInv initStore [] := by
  refine ⟨?_, ?_, ?_, ?_, ?_, ?_, ?_⟩
  · intro p hp
    rcases List.mem_singleton.mp hp with rfl
    exact ⟨[], rfl⟩
  · simp [initStore]
  · intro p hp
    rcases List.mem_singleton.mp hp with rfl
    simp [initStore]
  · rfl
  · rfl
  · rfl
  · exact List.Forall₂.nil

theorem foldl_inv (cmds : List Cmd) :
    ∀ (s : Store) (M : List (String × String)), StoreInv s M →
    StoreInv (cmds.foldl (fun s c => (stepCmd s c).1) s) (specRunAux M cmds) := by
  induction cmds with
  | nil => intro s M h; exact h
  | cons c rest ih =>
    intro s M h
    cases c with
    | set k v =>
      simp only [List.foldl_cons, specRunAux, stepCmd]
      exact ih _ _ (set_ok s M k v h).2
    | rm k =>
      simp only [List.foldl_cons, specRunAux, stepCmd]
      by_cases hk : (alLookup s.entry_to_index k).isSome = true
      · exact ih _ _ (remove_ok s M k h hk).2
      · simp only [Bool.not_eq_true] at hk
        rw [remove_absent s k hk]
        have hkM : k ∉ alKeys M := by
          rw [← forall2_keys (ptrOk_fst s.disk) h.rel]
          intro hc
          rw [← alLookup_isSome_iff_mem] at hc
          rw [hk] at hc
          cases hc
        rw [alErase_of_not_mem M k hkM]
        exact ih _ _ h

theorem runCmds_inv (cmds : List Cmd) : StoreInv (runCmds cmds) (specRun cmds) :=
  foldl_inv cmds initStore [] initStore_inv

/-! ## Classifying failures of the write path

The only `Result`-level error the compactor can produce is a record decode
failure; in particular no call below `remove` ever produces `KeyNotFound`. -/

theorem dictLines_err (ls : List (List Char)) :
    ∀ (d : List (String × String)) (e : KvsError),
    dictLines d ls = .error (.err e) → e = .SerdeError "invalid record" := by
  induction ls with
  | nil =>
    intro d e h
    simp [dictLines] at h
  | cons l rest ih =>
    intro d e h
    cases hdec : decodeOp l with
    | none =>
      simp only [dictLines, hdec] at h
      cases h
      rfl
    | some op =>
      cases op with
      | set k v =>
        simp only [dictLines, hdec] at h
        exact ih _ _ h
      | rm k =>
        by_cases hk : (alLookup d k).isSome = true
        · simp only [dictLines, hdec, if_pos hk] at h
          exact ih _ _ h
        · simp only [Bool.not_eq_true] at hk
          simp [dictLines, hdec, hk] at h

theorem dictDisk_err (files : List (Nat × List Char)) :
    ∀ (d : List (String × String)) (e : KvsError),
    dictDisk d files = .error (.err e) → e = .SerdeError "invalid record" := by
  induction files with
  | nil =>
    intro d e h
    simp [dictDisk] at h
  | cons p rest ih =>
    intro d e h
    obtain ⟨v, c⟩ := p
    simp only [dictDisk] at h
    rcases hdl : dictLines d (splitLines c) with f | dict'
    · rw [hdl] at h
      cases h
      exact dictLines_err _ _ _ hdl
    · rw [hdl] at h
      exact ih _ _ h

theorem compact_err (s : Store) (e : KvsError)
    (h : (KvStoreWriter.compact s).2 = some (.err e)) :
    e = .SerdeError "invalid record" := by
  simp only [KvStoreWriter.compact] at h
  rcases hcl : compactLoop (createFile s.disk (s.current_ver + 1)) [] (sortDisk s.disk)
    with ⟨dE, r⟩
  rw [hcl] at h
  cases r with
  | error f =>
    simp only [Option.some.injEq] at h
    have hsnd : (compactLoop (createFile s.disk (s.current_ver + 1)) []
        (sortDisk s.disk)).2 = .error f := by
      rw [hcl]
    rw [compactLoop_snd] at hsnd
    rw [h] at hsnd
    exact dictDisk_err _ _ _ hsnd
  | ok dict => simp at h

theorem flush_err (s : Store) (e : KvsError)
    (h : (KvStoreWriter.flush s).2 = some (.err e)) :
    e = .SerdeError "invalid record" := by
  simp only [KvStoreWriter.flush] at h
  by_cases hth : THRESHOLD ≤ s.old_log_len + s.current_len
  · rw [if_pos hth] at h
    rcases hc : KvStoreWriter.compact
        { s with old_log_len := s.old_log_len + s.current_len, current_len := 0 } with
      ⟨s2, f2⟩
    rw [hc] at h
    cases f2 with
    | none => simp at h
    | some f =>
      simp only [Option.some.injEq] at h
      apply compact_err _ e
      rw [hc, h]
  · rw [if_neg hth] at h
    simp at h

theorem to_flush_err (s : Store) (e : KvsError)
    (h : (KvStoreWriter.to_flush s).2 = some (.err e)) :
    e = .SerdeError "invalid record" := by
  simp only [KvStoreWriter.to_flush] at h
  by_cases hth : ACTIVE_THRESHOLD ≤ s.current_len
  · rw [if_pos hth] at h
    exact flush_err _ _ h
  · rw [if_neg hth] at h
    simp at h

/-! ## The open procedure -/

theorem insertByVer_mem (p : Nat × List Char) (l : List (Nat × List Char))
    (a : Nat × List Char) : a ∈ insertByVer p l ↔ a = p ∨ a ∈ l := by
  induction l with
  | nil => simp [insertByVer]
  | cons q rest ih =>
    by_cases hle : p.1 ≤ q.1
    · simp [insertByVer, hle]
    · simp only [insertByVer, if_neg hle, List.mem_cons, ih]
      tauto

theorem insertByVer_pairwise (p : Nat × List Char) (l : List (Nat × List Char))
    (h : List.Pairwise (fun a b => a.1 ≤ b.1) l) :
    List.Pairwise (fun a b => a.1 ≤ b.1) (insertByVer p l) := by
  induction l with
  | nil => simp [insertByVer]
  | cons q rest ih =>
    simp only [List.pairwise_cons] at h
    by_cases hle : p.1 ≤ q.1
    · simp only [insertByVer, if_pos hle]
      rw [List.pairwise_cons]
      refine ⟨?_, List.pairwise_cons.mpr h⟩
      intro a ha
      rcases List.mem_cons.mp ha with rfl | ha
      · exact hle
      · exact Nat.le_trans hle (h.1 a ha)
    · simp only [insertByVer, if_neg hle, List.pairwise_cons]
      refine ⟨?_, ih h.2⟩
      intro a ha
      rcases (insertByVer_mem p rest a).mp ha with rfl | ha
      · omega
      · exact h.1 a ha

theorem sortDisk_pairwise (files : List (Nat × List Char)) :
    List.Pairwise (fun a b => a.1 ≤ b.1) (sortDisk files) := by
  induction files with
  | nil => simp [sortDisk]
  | cons p rest ih => exact insertByVer_pairwise p _ ih

theorem sortDisk_mem (files : List (Nat × List Char)) (a : Nat × List Char) :
    a ∈ sortDisk files ↔ a ∈ files := by
  induction files with
  | nil => simp [sortDisk]
  | cons p rest ih =>
    simp only [sortDisk, insertByVer_mem, List.mem_cons, ih]

theorem mem_le_getLastD (l : List (Nat × List Char))
    (h : List.Pairwise (fun a b => a.1 ≤ b.1) l) :
    ∀ a ∈ l, a.1 ≤ ((l.map Prod.fst).getLast?).getD 0 := by
  induction l with
  | nil => intro a ha; simp at ha
  | cons p rest ih =>
    simp only [List.pairwise_cons] at h
    intro a ha
    cases rest with
    | nil =>
      rcases List.mem_cons.mp ha with rfl | ha
      · simp
      · simp at ha
    | cons q rest' =>
      have hlast : ((p :: q :: rest').map Prod.fst).getLast?
          = ((q :: rest').map Prod.fst).getLast? := by
        simp only [List.map_cons]
        rw [List.getLast?_cons_cons]
      rw [hlast]
      rcases List.mem_cons.mp ha with rfl | ha
      · have hq := ih h.2 q (by simp)
        exact Nat.le_trans (h.1 q (by simp)) hq
      · exact ih h.2 a ha

theorem maxVersion_fresh (files : List (Nat × List Char)) :
    maxVersion files + 1 ∉ alKeys (sortDisk files) := by
  intro hc
  obtain ⟨p, hp, hp1⟩ := (mem_alKeys_iff _ _).mp hc
  have := mem_le_getLastD _ (sortDisk_pairwise files) p hp
  unfold maxVersion at *
  omega

/-- C9's content at the level of the open procedure itself. -/
theorem open_fields (files : List (Nat × List Char)) (s2 : Store)
    (h : KvStoreWriter.new files = .ok s2) :
    s2.current_ver = maxVersion files + 1 ∧
    alLookup s2.disk s2.current_ver = some [] := by
  simp only [KvStoreWriter.new] at h
  rcases hl : loadDisk [] (sortDisk files) with e | idx
  · rw [hl] at h
    cases h
  · rw [hl] at h
    cases h
    refine ⟨rfl, ?_⟩
    show alLookup (createFile (sortDisk files) _) _ = some []
    have hfresh := maxVersion_fresh files
    have hnone : alLookup (sortDisk files) (maxVersion files + 1) = none :=
      alLookup_eq_none _ _ hfresh
    rw [show (((sortDisk files).map Prod.fst).getLast?).getD 0 = maxVersion files from rfl]
    rw [createFile, hnone]
    simp only [Option.isSome_none, Bool.false_eq_true, if_false]
    rw [alLookup_append_right _ _ _ hfresh]
    simp [alLookup]

theorem open_of_inv (s : Store) (M : List (String × String)) (h : StoreInv s M) :
    ∃ s2, KvStoreWriter.new s.disk = .ok s2 ∧ StoreInv s2 M := by
  have hsort := sortDisk_sorted_id _ h.sorted
  have hload : loadDisk [] (sortDisk s.disk) = .ok s.entry_to_index := h.load_eq
  obtain ⟨init, c, hd, hlt, hmem⟩ :=
    disk_split s.disk s.current_ver h.sorted h.bounded h.active
  have hmax : maxVersion s.disk = s.current_ver := by
    unfold maxVersion
    rw [hsort, hd]
    simp
  refine ⟨{ disk := createFile (sortDisk s.disk) (maxVersion s.disk + 1),
            entry_to_index := s.entry_to_index,
            current_ver := maxVersion s.disk + 1, current_len := 0,
            old_log_len := (s.disk.map fun p => p.2.length).sum,
            min_version := 0 }, ?_, ?_⟩
  · simp only [KvStoreWriter.new, hload]
    rfl
  · exact extendActive s M h _ (by rw [hsort, hmax]) rfl (by rw [hmax])

/-! ## Ordering facts about the compaction trace -/

theorem compactTrace_shape (s : Store) (d : List (String × String))
    (hok : dictDisk [] (sortDisk s.disk) = .ok d) :
    compactTrace s = .createSeg (s.current_ver + 1) ::
      (compactLoopTrace [] (sortDisk s.disk) ++
        [.writeSeg (s.current_ver + 1), .flushSeg (s.current_ver + 1)]) := by
  simp only [compactTrace, hok]

theorem compactLoopTrace_events (files : List (Nat × List Char)) :
    ∀ (dict : List (String × String)) (ev : CEvent),
    ev ∈ compactLoopTrace dict files →
    (∃ w, ev = .readSeg w) ∨ (∃ w, ev = .deleteSeg w) := by
  induction files with
  | nil => intro dict ev h; simp [compactLoopTrace] at h
  | cons p rest ih =>
    intro dict ev h
    obtain ⟨v, c⟩ := p
    simp only [compactLoopTrace] at h
    rcases hdl : dictLines dict (splitLines c) with e | dict'
    · rw [hdl] at h
      rcases List.mem_singleton.mp h with rfl
      exact Or.inl ⟨v, rfl⟩
    · rw [hdl] at h
      rcases List.mem_cons.mp h with rfl | h
      · exact Or.inl ⟨v, rfl⟩
      · rcases List.mem_cons.mp h with rfl | h
        · exact Or.inr ⟨v, rfl⟩
        · exact ih dict' ev h

/-- Every `deleteSeg` event of a successful compaction comes strictly
before the `flushSeg` event that persists the new segment. -/
theorem compact_deletes_before_flush (s : Store) (d : List (String × String))
    (hok : dictDisk [] (sortDisk s.disk) = .ok d) (i v : Nat)
    (hi : (compactTrace s).get? i = some (.deleteSeg v)) :
    ∃ j, i < j ∧ (compactTrace s).get? j = some (.flushSeg (s.current_ver + 1)) := by
  rw [compactTrace_shape s d hok] at hi ⊢
  refine ⟨(compactLoopTrace [] (sortDisk s.disk)).length + 2, ?_, ?_⟩
  · rcases i with _ | n
    · simp only [List.get?_cons_zero, Option.some.injEq] at hi
      cases hi
    · rw [List.get?_cons_succ] at hi
      have hn : n < (compactLoopTrace [] (sortDisk s.disk)).length := by
        by_contra hge
        push_neg at hge
        rw [List.get?_append_right hge] at hi
        rcases hdiff : n - (compactLoopTrace [] (sortDisk s.disk)).length with _ | m
        · rw [hdiff] at hi
          simp at hi
        · rw [hdiff] at hi
          rcases m with _ | m'
          · simp at hi
          · simp at hi
      omega
  · rw [List.get?_cons_succ, List.get?_append_right (by omega)]
    have : (compactLoopTrace [] (sortDisk s.disk)).length + 1 -
        (compactLoopTrace [] (sortDisk s.disk)).length = 1 := by omega
    rw [this]
    rfl

/-! ## Responses carry no newline -/

theorem nl_not_mem_append (a b : List Char) (ha : '\n' ∉ a) (hb : '\n' ∉ b) :
    '\n' ∉ a ++ b := by
  intro h
  rcases List.mem_append.mp h with h | h
  · exact ha h
  · exact hb h

theorem nl_not_mem_encGetResponse (r : GetResponse) : '\n' ∉ encGetResponse r := by
  cases r with
  | Ok v =>
    cases v with
    | none => decide
    | some s =>
      refine nl_not_mem_append _ _ (nl_not_mem_append _ _ (nl_not_mem_append _ _
        (by decide) (by decide)) (nl_not_mem_encStringData _)) (by decide)
  | Err m =>
    refine nl_not_mem_append _ _ (nl_not_mem_append _ _ (nl_not_mem_append _ _
      (by decide) (by decide)) (nl_not_mem_encStringData _)) (by decide)

theorem nl_not_mem_encSetResponse (r : SetResponse) : '\n' ∉ encSetResponse r := by
  cases r with
  | Ok => decide
  | Err m =>
    refine nl_not_mem_append _ _ (nl_not_mem_append _ _ (nl_not_mem_append _ _
      (by decide) (by decide)) (nl_not_mem_encStringData _)) (by decide)

theorem nl_not_mem_encRmResponse (r : RmResponse) : '\n' ∉ encRmResponse r := by
  cases r with
  | Ok => decide
  | Err m =>
    refine nl_not_mem_append _ _ (nl_not_mem_append _ _ (nl_not_mem_append _ _
      (by decide) (by decide)) (nl_not_mem_encStringData _)) (by decide)

/-! ## Concrete stores used by witnesses and counterexamples -/

/-- One sealed-looking segment holding a single live pair. -/
def compactDemoStore : Store :=
  { disk := [(1, renderOps [Op.set "a" "b"])], entry_to_index := [("a", ⟨1, 0⟩)],
    current_ver := 1, current_len := 0, old_log_len := 0, min_version := 0 }

/-- A store whose index points at a record that is not `Set`. -/
def corruptDemoStore : Store :=
  { disk := [(1, renderOps [Op.rm "a"])], entry_to_index := [("a", ⟨1, 0⟩)],
    current_ver := 1, current_len := 0, old_log_len := 0, min_version := 0 }

/-- The wire bytes of one framed `Get{key:"a"}` request. -/
def getRequestLine : List Char :=
  [lbrace] ++ litString "Get" ++ [':', lbrace] ++ litString "key" ++ [':']
    ++ encStringData "a".data ++ [rbrace, rbrace] ++ ['\n']

/-! ## The claims -/

/-- C1: for every finite sequence of set/remove operations applied to a
freshly opened store and every key `k`, the final `get k` returns
`Ok (Some v)` where `v` is the value of the last `set k v` not followed by
a later `remove k`, and `Ok None` if `k` was never set or its last set is
followed by a `remove k` (`specGet` is exactly that reading of the
history). -/
theorem get_eq_last_write (cmds : List Cmd) (k : String) :
    KvStore.get (runCmds cmds) k = .ok (specGet cmds k) := by
  rw [get_of_inv _ _ (runCmds_inv cmds) k, alLookup_specRun]

/-- C2: after any history of successful set/remove calls, closing the
store and reopening the directory yields a store whose `get` agrees with
the old store on every key. -/
theorem reopen_preserves_get (cmds : List Cmd) (k : String)
    (hclean : runClean cmds = true) :
    ∃ s2, KvStoreWriter.new (runCmds cmds).disk = .ok s2 ∧
      KvStore.get s2 k = KvStore.get (runCmds cmds) k := by
  obtain ⟨s2, hopen, hinv2⟩ := open_of_inv _ _ (runCmds_inv cmds)
  refine ⟨s2, hopen, ?_⟩
  rw [get_of_inv _ _ hinv2 k, get_of_inv _ _ (runCmds_inv cmds) k]

theorem reopen_preserves_get_witness :
    runClean [Cmd.set "a" "1"] = true ∧
    ∃ s2, KvStoreWriter.new (runCmds [Cmd.set "a" "1"]).disk = .ok s2 ∧
      KvStore.get s2 "a" = KvStore.get (runCmds [Cmd.set "a" "1"]) "a" :=
  ⟨by decide, reopen_preserves_get [Cmd.set "a" "1"] "a" (by decide)⟩

/-- C3 counterexample: a directory whose single segment starts with a
`Rm` record for a key absent from the index makes the open procedure
panic (`.expect("remove an invalid key from a map")`) instead of
skipping the record and completing. -/
theorem open_dangling_rm_counterexample :
    KvStoreWriter.new [(1, renderOps [Op.rm "a"])]
      = .error (.crash "remove an invalid key from a map") := by
  decide

/-- C3 amended: during replay a `Remove` record whose key is absent from
the index at that point makes the open procedure panic rather than being
skipped: any directory whose first replayed record is such a `Rm` fails
to open. -/
theorem open_dangling_rm_crashes (k : String) (ops : List Op) :
    KvStoreWriter.new [(1, renderOps (Op.rm k :: ops))]
      = .error (.crash "remove an invalid key from a map") := by
  have hsort : sortDisk [(1, renderOps (Op.rm k :: ops))]
      = [(1, renderOps (Op.rm k :: ops))] := by
    simp [sortDisk, insertByVer]
  have hload : loadDisk [] [(1, renderOps (Op.rm k :: ops))]
      = .error (.crash "remove an invalid key from a map") := by
    simp only [loadDisk, splitLines_renderOps, List.map_cons, replayLines,
      decodeOp_enc_nil, alLookup]
    rfl
  simp only [KvStoreWriter.new, hsort, hload]

/-- C4: `remove k` fails with `KeyNotFound` exactly when `k` is absent
from the index at the call, and in that case the store state (disk
included) is returned unchanged. -/
theorem remove_keynotfound_iff (s : Store) (k : String) :
    ((KvStoreWriter.remove s k).2 = some (.err .KeyNotFound) ↔
      (alLookup s.entry_to_index k).isSome = false) ∧
    ((alLookup s.entry_to_index k).isSome = false →
      (KvStoreWriter.remove s k).1 = s) := by
  constructor
  · constructor
    · intro h
      by_contra habs
      simp only [Bool.not_eq_false] at habs
      have hcond : ¬ ((alLookup s.entry_to_index k).isSome = false) := by
        simp [habs]
      simp only [KvStoreWriter.remove, if_neg hcond] at h
      have := to_flush_err _ _ h
      cases this
    · intro h
      rw [remove_absent s k h]
  · intro h
    rw [remove_absent s k h]

theorem remove_keynotfound_iff_witness :
    (alLookup initStore.entry_to_index "a").isSome = false ∧
    (KvStoreWriter.remove initStore "a").2 = some (.err .KeyNotFound) :=
  ⟨by decide, (remove_keynotfound_iff initStore "a").1.mpr (by decide)⟩

/-- C5 counterexample: on a store with one sealed segment, the compaction
trace is create, read, delete, write, flush: the `deleteSeg` at position 2
has no `flushSeg` before it, so the old segment is deleted while the
compacted output is not yet persisted. -/
theorem compact_delete_first_counterexample :
    ¬ (∀ i v, (compactTrace compactDemoStore).get? i = some (.deleteSeg v) →
        ∃ j, j < i ∧ ∃ w, (compactTrace compactDemoStore).get? j
          = some (.flushSeg w)) := by
  intro hcl
  have htr : compactTrace compactDemoStore =
      [.createSeg 2, .readSeg 1, .deleteSeg 1, .writeSeg 2, .flushSeg 2] := by
    decide
  obtain ⟨j, hj, w, hw⟩ := hcl 2 1 (by rw [htr]; rfl)
  rw [htr] at hw
  interval_cases j <;> simp at hw

/-- C5 amended: compaction deletes each old sealed segment right after
reading it and only afterwards writes and flushes the new compacted
segment: every `deleteSeg` event strictly precedes the `flushSeg` event
of the new segment (stated for compactions whose replay succeeds). -/
theorem compact_flush_after_deletes (s : Store) (d : List (String × String))
    (hok : dictDisk [] (sortDisk s.disk) = .ok d) (i v : Nat)
    (hi : (compactTrace s).get? i = some (.deleteSeg v)) :
    ∃ j, i < j ∧ (compactTrace s).get? j = some (.flushSeg (s.current_ver + 1)) :=
  compact_deletes_before_flush s d hok i v hi

theorem compact_flush_after_deletes_witness :
    ∃ j, 2 < j ∧ (compactTrace compactDemoStore).get? j
      = some (.flushSeg (compactDemoStore.current_ver + 1)) :=
  compact_flush_after_deletes compactDemoStore [("a", "b")] (by decide) 2 1 (by decide)

/-- C6 counterexample: when the index points at a record that is not
`Set`, `get` fails with `UnexpectedType`; the error enum of `error.rs`
has no `Corruption` constructor, and under the spec's section 7 taxonomy
the returned kind is `UnexpectedType`, not `Corruption`. -/
theorem get_nonset_counterexample :
    KvStore.get corruptDemoStore "a" = .error .UnexpectedType ∧
    specKindOf .UnexpectedType ≠ SpecErrorKind.Corruption := by
  exact ⟨by decide, by decide⟩

/-- C6 amended: `get` never fails with `KeyNotFound` (absence is
`Ok None`), and when the record referenced by the index decodes as a
record that is not `Set`, `get` fails with `UnexpectedType`. -/
theorem get_errors (s : Store) (k : String) :
    (KvStore.get s k ≠ .error .KeyNotFound) ∧
    (∀ (e : InMemIndex) (c : List Char) (kk : String),
      alLookup s.entry_to_index k = some e →
      alLookup s.disk e.version = some c →
      decodeOp (readLineAt c e.start_pos) = some (Op.rm kk) →
      KvStore.get s k = .error .UnexpectedType) := by
  constructor
  · rcases hl : alLookup s.entry_to_index k with _ | e
    · simp [KvStore.get, hl]
    · rcases hc : alLookup s.disk e.version with _ | c
      · simp [KvStore.get, hl, KvStoreReader.get, hc]
      · rcases hd : decodeOp (readLineAt c e.start_pos) with _ | op
        · simp [KvStore.get, hl, KvStoreReader.get, hc, hd]
        · cases op with
          | set kk vv => simp [KvStore.get, hl, KvStoreReader.get, hc, hd]
          | rm kk => simp [KvStore.get, hl, KvStoreReader.get, hc, hd]
  · intro e c kk h1 h2 h3
    simp [KvStore.get, h1, KvStoreReader.get, h2, h3]

theorem get_errors_witness :
    KvStore.get corruptDemoStore "a" = .error .UnexpectedType :=
  (get_errors corruptDemoStore "a").2 ⟨1, 0⟩ (renderOps [Op.rm "a"]) "a"
    (by decide) (by decide) (by decide)

/-- C7 counterexample: for a store holding key `"a"`, the `remove` trace
is index-removal, then append, then flush: there are no positions
`i < j` with the append at `i` and the index removal at `j`, so the
record is not appended before the key leaves the index. -/
theorem remove_order_counterexample :
    ¬ ∃ i j, i < j ∧
      (removeTrace compactDemoStore "a").get? i = some REvent.appendRecord ∧
      (removeTrace compactDemoStore "a").get? j = some REvent.indexRemove := by
  rintro ⟨i, j, hij, hi, hj⟩
  have htr : removeTrace compactDemoStore "a"
      = [.indexRemove, .appendRecord, .persistRecord] := by decide
  rw [htr] at hi hj
  have hjl : j < 3 := by
    have := (List.get?_eq_some.mp hj).1
    simpa using this
  interval_cases j <;> interval_cases i <;> simp_all

/-- C7 amended: for every key present in the index, `remove` first
deletes the key from the index and only then appends and persists the
`Rm{key}` record; consequently, if the append or persist step fails the
key has already left the index. -/
theorem remove_trace_order (s : Store) (k : String)
    (hk : (alLookup s.entry_to_index k).isSome = true) :
    removeTrace s k = [.indexRemove, .appendRecord, .persistRecord] := by
  simp [removeTrace, hk]

theorem remove_trace_order_witness :
    removeTrace compactDemoStore "a"
      = [.indexRemove, .appendRecord, .persistRecord] :=
  remove_trace_order compactDemoStore "a" (by decide)

/-- C8 counterexample: serving `Get{key:"a"}` on a fresh store writes the
single response `\x7b"Ok":null\x7d` whose last byte is not a newline: the
server never appends the `\n` terminator (it shuts the write side down
instead). -/
theorem response_unterminated_counterexample :
    (handle_stream getRequestLine initStore).2
      = [encGetResponse (GetResponse.Ok none)] ∧
    (encGetResponse (GetResponse.Ok none)).getLast? ≠ some '\n' := by
  exact ⟨by decide, by decide⟩

/-- C8 amended: per interaction the server writes at most one response
(exactly one unless the engine call panics, which kills the worker before
any write), and no response it writes contains a newline byte at all; the
response is delimited by shutting down the write side, not by `\n`. -/
theorem handle_stream_single_response (input : List Char) (s : Store) :
    (handle_stream input s).2.length ≤ 1 ∧
    ∀ r ∈ (handle_stream input s).2, '\n' ∉ r := by
  cases hdec : decodeRequest ((takeLine input).dropLast) with
  | none =>
    have hh : (handle_stream input s).2
        = [KvsError.display (.SerdeError "invalid request")] := by
      simp only [handle_stream, hdec]
    rw [hh]
    refine ⟨by simp, ?_⟩
    intro r hr
    rcases List.mem_singleton.mp hr with rfl
    decide
  | some req =>
    cases req with
    | get k =>
      have hh : (handle_stream input s).2
          = [encGetResponse (getResponseOf (KvStore.get s k))] := by
        simp only [handle_stream, hdec]
      rw [hh]
      refine ⟨by simp, ?_⟩
      intro r hr
      rcases List.mem_singleton.mp hr with rfl
      exact nl_not_mem_encGetResponse _
    | set k v =>
      rcases hs : KvStoreWriter.set s k v with ⟨s2, f⟩
      cases f with
      | none =>
        have hh : (handle_stream input s).2 = [encSetResponse .Ok] := by
          simp only [handle_stream, hdec, hs]
        rw [hh]
        refine ⟨by simp, ?_⟩
        intro r hr
        rcases List.mem_singleton.mp hr with rfl
        exact nl_not_mem_encSetResponse _
      | some fl =>
        cases fl with
        | err e =>
          have hh : (handle_stream input s).2
              = [encSetResponse (.Err (String.mk e.display))] := by
            simp only [handle_stream, hdec, hs]
          rw [hh]
          refine ⟨by simp, ?_⟩
          intro r hr
          rcases List.mem_singleton.mp hr with rfl
          exact nl_not_mem_encSetResponse _
        | crash m =>
          have hh : (handle_stream input s).2 = [] := by
            simp only [handle_stream, hdec, hs]
          rw [hh]
          refine ⟨by simp, ?_⟩
          intro r hr
          simp at hr
    | rm k =>
      rcases hs : KvStoreWriter.remove s k with ⟨s2, f⟩
      cases f with
      | none =>
        have hh : (handle_stream input s).2 = [encRmResponse .Ok] := by
          simp only [handle_stream, hdec, hs]
        rw [hh]
        refine ⟨by simp, ?_⟩
        intro r hr
        rcases List.mem_singleton.mp hr with rfl
        exact nl_not_mem_encRmResponse _
      | some fl =>
        cases fl with
        | err e =>
          have hh : (handle_stream input s).2
              = [encRmResponse (.Err (String.mk e.display))] := by
            simp only [handle_stream, hdec, hs]
          rw [hh]
          refine ⟨by simp, ?_⟩
          intro r hr
          rcases List.mem_singleton.mp hr with rfl
          exact nl_not_mem_encRmResponse _
        | crash m =>
          have hh : (handle_stream input s).2 = [] := by
            simp only [handle_stream, hdec, hs]
          rw [hh]
          refine ⟨by simp, ?_⟩
          intro r hr
          simp at hr

theorem handle_stream_single_response_witness :
    '\n' ∉ encGetResponse (GetResponse.Ok none) :=
  (handle_stream_single_response getRequestLine initStore).2
    (encGetResponse (GetResponse.Ok none)) (by decide)

/-- C9: a successful open chooses active version `maxVersion files + 1`
(`maxVersion [] = 0`, so a directory with no segment files yields 1) and
the file of that version is open on disk, empty, as the active
segment. -/
theorem open_active_version (files : List (Nat × List Char)) (s2 : Store)
    (h : KvStoreWriter.new files = .ok s2) :
    s2.current_ver = maxVersion files + 1 ∧
    alLookup s2.disk s2.current_ver = some [] :=
  open_fields files s2 h

theorem open_active_version_witness :
    initStore.current_ver = maxVersion [] + 1 ∧
    alLookup initStore.disk initStore.current_ver = some [] :=
  open_active_version [] initStore (by rfl)

/-- C10: for every reachable store and every key and value, values with
newline characters included, `set key value` succeeds (records are JSON
lines escaping the newline) and an immediate `get key` returns
`Ok (Some value)`. -/
theorem set_then_get (cmds : List Cmd) (k v : String) :
    (KvStoreWriter.set (runCmds cmds) k v).2 = none ∧
    KvStore.get (KvStoreWriter.set (runCmds cmds) k v).1 k = .ok (some v) := by
  obtain ⟨hf, hinv⟩ := set_ok _ _ k v (runCmds_inv cmds)
  exact ⟨hf, by rw [get_of_inv _ _ hinv k, alLookup_insert_self]⟩
